import Mathlib

/-!
Verification development for `.github/scripts/prepare_icf_template.py`:
the artifact template discovery and override-extraction engine.

Strings are modelled as lists of characters (`Str`), filesystem paths as
lists of name components (`FPath`).  Pure helpers of the script
(`prefer_key`, the override-parsing loops, the candidate filtering in
`main`) become Lean functions; the filesystem-walking parts
(`collect_candidates` and the zip expansion inlined in it) become
functions over an explicit filesystem state `FS`, with fuel for the
work-queue loop and `Except` for error propagation.
-/

namespace ICF

abbrev Str := List Char

/-- Whitespace characters stripped by Python `str.strip()` (ASCII range). -/
def isSpaceChar (c : Char) : Bool :=
  c = ' ' || c = '\t' || c = '\n' || c = '\r' || c = '\x0b' || c = '\x0c'

def pyLstrip (s : Str) : Str := s.dropWhile isSpaceChar

def pyRstrip (s : Str) : Str := (s.reverse.dropWhile isSpaceChar).reverse

/-- Python `str.strip()`. -/
def pyStrip (s : Str) : Str := pyRstrip (pyLstrip s)

/-- Python `str.lstrip("#")`. -/
def lstripHash (s : Str) : Str := s.dropWhile (fun c => c = '#')

/-- Python `str.splitlines()` restricted to the `'\n'` separator:
no trailing empty line is produced for a final newline. -/
def splitlines : Str → List Str
  | [] => []
  | c :: rest =>
    if c = '\n' then [] :: splitlines rest
    else
      match splitlines rest with
      | [] => [[c]]
      | l :: ls => (c :: l) :: ls

/-- `"=" in stripped` -/
def hasEq (s : Str) : Bool := s.any (fun c => c = '=')

/-- `stripped.split("=", 1)` followed by `.strip()` on both halves. -/
def splitEq (s : Str) : Str × Str :=
  (pyStrip (s.takeWhile (fun c => ¬ c = '=')),
   pyStrip ((s.dropWhile (fun c => ¬ c = '=')).drop 1))

/-- One iteration of the key/value loop of `main` (lines 176-185 of the
script): returns the stored pair, or `none` when the line is skipped. -/
def lineKV (raw : Str) : Option (Str × Str) :=
  let stripped := pyStrip raw
  if stripped.isEmpty then none
  else if List.isPrefixOf "##".data stripped then none
  else
    let s2 := if List.isPrefixOf "#".data stripped then pyStrip (lstripHash stripped)
              else stripped
    if s2.isEmpty then none
    else if List.isPrefixOf "#".data s2 then none
    else if ¬ hasEq s2 then none
    else some (splitEq s2)

/-- Python `dict` assignment `overrides[k] = v`: updates in place when the
key is present (keeping insertion order), appends otherwise. -/
def dictInsert (m : List (Str × Str)) (k v : Str) : List (Str × Str) :=
  if m.any (fun p => decide (p.1 = k)) then
    m.map (fun p => if p.1 = k then (k, v) else p)
  else m ++ [(k, v)]

/-- The key/value accumulation loop over a line list. -/
def processLines (lines : List Str) : List (Str × Str) :=
  lines.foldl (fun m line =>
    match lineKV line with
    | none => m
    | some kv => dictInsert m kv.1 kv.2) []

/-- `"----" in line` -/
def hasDashes : Str → Bool
  | [] => false
  | c :: rest => List.isPrefixOf "----".data (c :: rest) || hasDashes rest

/-- The section-marker test of line 173:
`line.strip().startswith("##") and "----" in line`. -/
def isMarker (line : Str) : Bool :=
  List.isPrefixOf "##".data (pyStrip line) && hasDashes line

/-- `start_idx` computed by the first loop of lines 171-175: one past the
first marker line, or `0` when no marker exists. -/
def startIdx (lines : List Str) : Nat :=
  match lines.findIdx? isMarker with
  | some i => i + 1
  | none => 0

/-- The full override-parsing phase of `main` on an explicit line list. -/
def parseOverridesLines (lines : List Str) : List (Str × Str) :=
  processLines (lines.drop (startIdx lines))

/-- The full override-parsing phase of `main` on raw text
(`content.splitlines()` then the two loops). -/
def parseOverridesText (text : Str) : List (Str × Str) :=
  parseOverridesLines (splitlines text)

/-- Re-serialization of an override map as `key=value` lines. -/
def serializeLines (m : List (Str × Str)) : List Str :=
  m.map (fun p => p.1 ++ '=' :: p.2)

/-! ### Candidate selection (`prefer_key` and the filters of `main`) -/

/-- A collected candidate file as seen by the selection phase of `main`:
its full path string, its final name component, whether `is_file()` holds,
whether `is_text_file` succeeds, and the result of `read_text` (`none`
models an `OSError`). -/
structure CandFile where
  pathStr : Str
  name : Str
  isFile : Bool
  isText : Bool
  content : Option Str
deriving DecidableEq

/-- Python `PurePath.suffix` of a final name component: the part from the
last dot, empty when the dot is absent, leading, or trailing. -/
def pySuffix (name : Str) : Str :=
  let r := name.reverse
  let after := r.takeWhile (fun c => ¬ c = '.')
  match r.drop after.length with
  | [] => []
  | _ :: pre => if after.isEmpty || pre.isEmpty then [] else '.' :: after.reverse

/-- `path.suffix.lower()` -/
def lowerSuffix (name : Str) : Str := (pySuffix name).map Char.toLower

/-- The allow-list of lines 116-123. -/
def allowedSuffixes : List Str :=
  [".properties".data, ".cfg".data, ".conf".data, ".ini".data,
   ".env".data, ".txt".data]

/-- The priority component of `prefer_key`. -/
def priorityOf (name : Str) : Nat :=
  let suffix := lowerSuffix name
  if suffix = ".properties".data then 0
  else if suffix = ".txt".data ∨ suffix = ".cfg".data then 1
  else 2

/-- Boolean code-point comparison of strings, as Python `<=` on `str`. -/
def strLe : Str → Str → Bool
  | [], _ => true
  | _ :: _, [] => false
  | a :: as, b :: bs =>
    if a.toNat < b.toNat then true
    else if b.toNat < a.toNat then false
    else strLe as bs

/-- The ordering induced by `prefer_key`: lexicographic on
(extension priority, `len(path.name)`, `path.name`). -/
def preferLe (f g : CandFile) : Bool :=
  if priorityOf f.name < priorityOf g.name then true
  else if priorityOf g.name < priorityOf f.name then false
  else if f.name.length < g.name.length then true
  else if g.name.length < f.name.length then false
  else strLe f.name g.name

/-- Stable insertion into a sorted list. -/
def insertSorted (le : α → α → Bool) (a : α) : List α → List α
  | [] => [a]
  | b :: bs => if le a b then a :: b :: bs else b :: insertSorted le a bs

/-- Stable sort (extensionally the behaviour of Python `sorted`). -/
def sortBy (le : α → α → Bool) : List α → List α
  | [] => []
  | a :: as => insertSorted le a (sortBy le as)

/-- Lines 125-134 of `main`: filter to text files, then to allow-listed
suffixes, the working set becoming empty when no suffix matches. -/
def workingSet (files : List CandFile) : List CandFile :=
  let candidates := files.filter (fun f => f.isFile && f.isText)
  let prioritized :=
    candidates.filter (fun f => decide (lowerSuffix f.name ∈ allowedSuffixes))
  if prioritized.isEmpty then [] else prioritized

/-- Lines 136-137: `sorted(candidates, key=prefer_key)[0]` when the working
set is non-empty, `None` otherwise. -/
def selectChosen (files : List CandFile) : Option CandFile :=
  (sortBy preferLe (workingSet files)).head?

/-! ### Result emission (the tail of `main`, lines 135-219) -/

def statusReady : Str := "ready".data
def statusMissing : Str := "missing".data
def statusFallback : Str := "fallback".data
def statusEmpty : Str := "empty".data

/-- The caller-supplied fallback template file as seen by `main`:
whether `is_file()` holds, and the result of `read_text` (`none` models an
`OSError`, which here is not caught). -/
structure FallbackFile where
  pathStr : Str
  isFile : Bool
  content : Option Str
deriving DecidableEq

/-- The engine's output record: final status, chosen source path, raw
content, override map, and the `name=value` pairs written to the output
stream. -/
structure RunResult where
  status : Str
  source : Option Str
  content : Option Str
  overrides : List (Str × Str)
  outputs : List (Str × Str)
deriving DecidableEq

def hexDigit (n : Nat) : Char :=
  "0123456789abcdef".data.getD n '0'

/-- JSON string-character escaping as `json.dumps` with
`ensure_ascii=False`. -/
def jsonEscapeChar (c : Char) : Str :=
  if c = '"' then ['\\', '"']
  else if c = '\\' then ['\\', '\\']
  else if c = '\n' then ['\\', 'n']
  else if c = '\t' then ['\\', 't']
  else if c = '\r' then ['\\', 'r']
  else if c = '\x08' then ['\\', 'b']
  else if c = '\x0c' then ['\\', 'f']
  else if c.toNat < 32 then
    ['\\', 'u', '0', '0', hexDigit (c.toNat / 16), hexDigit (c.toNat % 16)]
  else [c]

def jsonStr (s : Str) : Str :=
  '"' :: s.foldr (fun c acc => jsonEscapeChar c ++ acc) ['"']

def jsonEntry (p : Str × Str) : Str :=
  "  ".data ++ jsonStr p.1 ++ ": ".data ++ jsonStr p.2

def joinSep (sep : Str) : List Str → Str
  | [] => []
  | [x] => x
  | x :: y :: xs => x ++ sep ++ joinSep sep (y :: xs)

/-- `json.dumps(overrides, indent=2, ensure_ascii=False)`. -/
def jsonDumps (m : List (Str × Str)) : Str :=
  match m with
  | [] => ['\x7b', '\x7d']
  | _ =>
    '\x7b' :: '\n' :: joinSep (",\n".data) (m.map jsonEntry) ++ ['\n', '\x7d']

def b64Alphabet : Str :=
  "ABCDEFGHIJKLMNOPQRSTUVWXYZabcdefghijklmnopqrstuvwxyz0123456789+/".data

def b64Digit (n : Nat) : Char := b64Alphabet.getD n 'A'

/-- UTF-8 encoding of one code point. -/
def utf8Bytes (c : Char) : List Nat :=
  let n := c.toNat
  if n < 128 then [n]
  else if n < 2048 then [192 + n / 64, 128 + n % 64]
  else if n < 65536 then [224 + n / 4096, 128 + (n / 64) % 64, 128 + n % 64]
  else [240 + n / 262144, 128 + (n / 4096) % 64, 128 + (n / 64) % 64,
        128 + n % 64]

/-- Base64 of a byte list, with padding. -/
def encodeBytes : List Nat → Str
  | [] => []
  | [a] => [b64Digit (a / 4), b64Digit (a % 4 * 16), '=', '=']
  | [a, b] => [b64Digit (a / 4), b64Digit (a % 4 * 16 + b / 16),
               b64Digit (b % 16 * 4), '=']
  | a :: b :: c :: rest =>
    b64Digit (a / 4) :: b64Digit (a % 4 * 16 + b / 16) ::
      b64Digit (b % 16 * 4 + c / 64) :: b64Digit (c % 64) :: encodeBytes rest

/-- `base64.b64encode(text.encode("utf-8")).decode("ascii")`. -/
def b64utf8 (s : Str) : Str :=
  encodeBytes (s.foldr (fun c acc => utf8Bytes c ++ acc) [])

/-- `Path(source_path).name`: the final component of a path string. -/
def pathNameOf (s : Str) : Str :=
  (s.reverse.takeWhile (fun c => ¬ c = '/')).reverse

/-- `emit_output` skips falsy values; keeping only non-empty values
models the sequence of `emit_output` calls. -/
def emitList (pairs : List (Str × Str)) : List (Str × Str) :=
  pairs.filter (fun p => ¬ p.2.isEmpty)

/-- Lines 169-217 of `main`, once some content was obtained: parse the
overrides, downgrade an empty `ready` result to `empty`, and emit the
outputs. -/
def finishRun (st : Str) (t : Str) (src : Str) : RunResult :=
  let overrides := parseOverridesText t
  let st2 := if overrides.isEmpty ∧ st = statusReady then statusEmpty else st
  let encContent := b64utf8 t
  let encOv := b64utf8 (jsonDumps overrides)
  { status := st2, source := some src, content := some t,
    overrides := overrides,
    outputs := emitList
      [("icf_template_path".data, src),
       ("icf_template_source".data, src),
       ("icf_template_file".data, if src.isEmpty then [] else pathNameOf src),
       ("icf_template_content_b64".data, encContent),
       ("icf_overrides_json_b64".data, encOv),
       ("icf_overrides_qa_json_b64".data, encOv),
       ("icf_overrides_prod_json_b64".data, encOv),
       ("icf_template_status".data, st2)] }

/-- Lines 164-167 of `main`: no content by either path — only the status
is emitted. -/
def noContentRun (st : Str) : RunResult :=
  { status := st, source := none, content := none, overrides := [],
    outputs := emitList [("icf_template_status".data, st)] }

/-- The selection/read/fallback/parse/emit phase of `main` (lines
124-219), over the collected candidate list and the optional fallback
file.  The `Except` error is the uncaught `OSError` of the fallback
`read_text` call (line 159). -/
def resolveRun (files : List CandFile) (fallback : Option FallbackFile) :
    Except Unit RunResult :=
  let ws := workingSet files
  let chosen : Option CandFile := (sortBy preferLe ws).head?
  let st1 := if ws.isEmpty then statusMissing else statusReady
  let fromChosen : Option (Str × Str) :=
    match chosen with
    | none => none
    | some c =>
      match c.content with
      | some t => some (t, c.pathStr)
      | none => none
  match fromChosen with
  | some (t, src) => .ok (finishRun st1 t src)
  | none =>
    match fallback with
    | none => .ok (noContentRun st1)
    | some fb =>
      if fb.isFile then
        match fb.content with
        | none => .error ()
        | some t =>
          let st2 := if st1 = statusMissing then statusFallback else st1
          .ok (finishRun st2 t fb.pathStr)
      else .ok (noContentRun st1)

/-! ### Filesystem model and `collect_candidates` -/

/-- A path: list of name components. -/
abbrev FPath := List Str

/-- Attributes of one file on disk: whether `zipfile.is_zipfile` accepts
its signature, whether a full UTF-8 decode succeeds, the `read_text`
result (`none` models `OSError`), whether `ZipFile(...).extractall`
succeeds (`zipOk = false` models a corrupt archive raising
`BadZipFile`), and the archive's member directories and files (paths
relative to the extraction target). -/
inductive FileRec where
  | mk (sigZip : Bool) (isText : Bool) (content : Option Str) (zipOk : Bool)
      (entryDirs : List FPath) (entryFiles : List (FPath × FileRec))

def FileRec.sigZip : FileRec → Bool | .mk s _ _ _ _ _ => s
def FileRec.isText : FileRec → Bool | .mk _ t _ _ _ _ => t
def FileRec.content : FileRec → Option Str | .mk _ _ c _ _ _ => c
def FileRec.zipOk : FileRec → Bool | .mk _ _ _ z _ _ => z
def FileRec.entryDirs : FileRec → List FPath | .mk _ _ _ _ d _ => d
def FileRec.entryFiles : FileRec → List (FPath × FileRec) | .mk _ _ _ _ _ f => f

/-- A snapshot of the filesystem: the existing directories, and the
existing regular files with their attributes. -/
structure FS where
  dirs : List FPath
  files : List (FPath × FileRec)

def FS.isDir (fs : FS) (p : FPath) : Bool := decide (p ∈ fs.dirs)

def FS.getFile (fs : FS) (p : FPath) : Option FileRec :=
  (fs.files.find? (fun q => decide (q.1 = p))).map Prod.snd

def FS.isFile (fs : FS) (p : FPath) : Bool := (fs.getFile p).isSome

/-- `path.exists()` -/
def FS.present (fs : FS) (p : FPath) : Bool := fs.isDir p || fs.isFile p

/-- `p` is a direct entry of directory `d`. -/
def isChildOf (d p : FPath) : Bool := !p.isEmpty && decide (p.dropLast = d)

/-- `current.iterdir()`: the existing direct entries of a directory, each
listed once. -/
def FS.childPaths (fs : FS) (d : FPath) : List FPath :=
  ((fs.dirs ++ fs.files.map Prod.fst).filter (isChildOf d)).dedup

def lastName (p : FPath) : Str := p.getLastD []

/-- The extraction destination of lines 74-77: `entry.with_suffix("")`
when the name has a suffix, `<name>_extracted` otherwise. -/
def expandTarget (e : FPath) : FPath :=
  let n := lastName e
  let suf := pySuffix n
  if ¬ suf.isEmpty then e.dropLast ++ [n.take (n.length - suf.length)]
  else e.dropLast ++ [n ++ "_extracted".data]

/-- `target_dir.mkdir(...)` plus `archive.extractall(target_dir)`:
the target directory and the archive members appear on disk. -/
def FS.extractInto (fs : FS) (target : FPath) (fr : FileRec) : FS :=
  { dirs := fs.dirs ++ target :: fr.entryDirs.map (fun r => target ++ r),
    files := fs.files ++ fr.entryFiles.map (fun rf => (target ++ rf.1, rf.2)) }

/-- The archive-expansion step of lines 73-83, for a file already known
to have a zip signature: skip extraction when the destination exists,
extract otherwise, failing on a corrupt archive. -/
def expandStep (fs : FS) (e : FPath) (fr : FileRec) :
    Except Unit (FS × FPath) :=
  let target := expandTarget e
  if fs.present target then .ok (fs, target)
  else if fr.zipOk then .ok (fs.extractInto target fr, target)
  else .error ()

/-- The entry loop of lines 65-86 over one directory's entries: returns
the updated filesystem, the paths to enqueue (subdirectories and
extraction targets, in entry order) and the plain-file candidates. -/
def processEntries : FS → List FPath → Except Unit (FS × List FPath × List FPath)
  | fs, [] => .ok (fs, [], [])
  | fs, p :: ps =>
    if fs.isDir p then
      (processEntries fs ps).map (fun r => (r.1, p :: r.2.1, r.2.2))
    else
      match fs.getFile p with
      | none => processEntries fs ps
      | some fr =>
        if fr.sigZip then
          match expandStep fs p fr with
          | .error e => .error e
          | .ok (fs2, t) =>
            (processEntries fs2 ps).map (fun r => (r.1, t :: r.2.1, r.2.2))
        else
          (processEntries fs ps).map (fun r => (r.1, r.2.1, p :: r.2.2))

inductive CErr where
  | fuel
  | zip
  | os
deriving DecidableEq

/-- The work-queue loop of lines 56-88, with fuel.  Besides the
filesystem and candidate list it returns the log of directories whose
entries were iterated, in order. -/
def collectAux : Nat → FS → List FPath → List FPath → List FPath →
    List FPath → Except CErr (FS × List FPath × List FPath)
  | 0, _, _, _, _, _ => .error .fuel
  | _ + 1, fs, [], _, acc, vis => .ok (fs, acc, vis)
  | n + 1, fs, cur :: rest, seen, acc, vis =>
    if cur ∈ seen ∨ ¬ fs.present cur then collectAux n fs rest seen acc vis
    else if fs.isFile cur then collectAux n fs rest (cur :: seen) acc vis
    else
      match processEntries fs (fs.childPaths cur) with
      | .error _ => .error .zip
      | .ok (fs2, newQ, newA) =>
        collectAux n fs2 (rest ++ newQ) (cur :: seen) (acc ++ newA)
          (vis ++ [cur])

/-- `collect_candidates(root)` of lines 47-88. -/
def collect_candidates (fuel : Nat) (fs : FS) (root : FPath) :
    Except CErr (FS × List FPath × List FPath) :=
  if ¬ fs.present root then .ok (fs, [], [])
  else collectAux fuel fs [root] [] [] []

/-- The search roots of lines 104-111. -/
def searchRoots (artifactRoot : FPath) : List FPath :=
  [artifactRoot ++ ["customization-template".data],
   artifactRoot ++ ["customization".data],
   artifactRoot]

/-- The loop of lines 113-114: one `collect_candidates` call per root,
each with a fresh visited set, candidate lists concatenated.  The
filesystem state threads through (extraction side effects persist). -/
def collectRoots (fuel : Nat) : FS → List FPath →
    Except CErr (FS × List FPath × List FPath)
  | fs, [] => .ok (fs, [], [])
  | fs, r :: rs =>
    match collect_candidates fuel fs r with
    | .error e => .error e
    | .ok (fs2, cands, vis) =>
      (collectRoots fuel fs2 rs).map
        (fun res => (res.1, cands ++ res.2.1, vis ++ res.2.2))

def mainCollect (fuel : Nat) (fs : FS) (artifactRoot : FPath) :
    Except CErr (FS × List FPath × List FPath) :=
  collectRoots fuel fs (searchRoots artifactRoot)

def joinPath (p : FPath) : Str := joinSep "/".data p

/-- The view of a collected path taken by the selection phase:
`path.is_file()`, `is_text_file(path)`, `path.read_text()`. -/
def toCand (fs : FS) (p : FPath) : CandFile :=
  match fs.getFile p with
  | some fr =>
    { pathStr := joinPath p, name := lastName p, isFile := true,
      isText := fr.isText, content := fr.content }
  | none =>
    { pathStr := joinPath p, name := lastName p, isFile := false,
      isText := false, content := none }

/-- `main` end to end over the filesystem model: collection over the
three search roots, then selection/read/fallback/parse/emit. -/
def mainRun (fuel : Nat) (fs : FS) (artifactRoot : FPath)
    (fallback : Option FallbackFile) : Except CErr RunResult :=
  match mainCollect fuel fs artifactRoot with
  | .error e => .error e
  | .ok (fs2, cands, _) =>
    match resolveRun (cands.map (toCand fs2)) fallback with
    | .error _ => .error .os
    | .ok r => .ok r

/-- Directories reachable from a root by following existing
subdirectories. -/
inductive Reach (fs : FS) (root : FPath) : FPath → Prop where
  | base : fs.isDir root = true → Reach fs root root
  | step : ∀ {d c}, Reach fs root d → isChildOf d c = true →
      fs.isDir c = true → Reach fs root c

/-- Directories the queue loop will still process, from an intermediate
state: members of the queue not yet seen, closed under unseen child
directories. -/
inductive ReachQ (fs : FS) (queue seen : List FPath) : FPath → Prop where
  | base : ∀ {d}, d ∈ queue → d ∉ seen → fs.isDir d = true →
      ReachQ fs queue seen d
  | step : ∀ {d c}, ReachQ fs queue seen d → isChildOf d c = true →
      c ∉ seen → fs.isDir c = true → ReachQ fs queue seen c

/-- No file in the tree has an archive signature. -/
def noArchives (fs : FS) : Prop := ∀ pr ∈ fs.files, pr.2.sigZip = false

/-- Well-formed snapshot: no duplicate paths, no path both a directory
and a file. -/
def FS.wf (fs : FS) : Prop :=
  fs.dirs.Nodup ∧ (fs.files.map Prod.fst).Nodup ∧
    ∀ p ∈ fs.dirs, p ∉ fs.files.map Prod.fst

/-- Fuel sufficient for an archive-free traversal. -/
def sufFuel (fs : FS) : Nat :=
  2 + (fs.dirs.map (fun d => 1 + (fs.childPaths d).length)).sum

/-! ### Auxiliary definitions for the verification -/

/-- The keys of an override map, in insertion order. -/
def keysOf (m : List (Str × Str)) : List Str := m.map Prod.fst

/-- The loop body of `processLines`, named for reasoning. -/
def pstep (m : List (Str × Str)) (line : Str) : List (Str × Str) :=
  match lineKV line with
  | none => m
  | some kv => dictInsert m kv.1 kv.2

/-- Shape invariant of every pair stored by the override parser: both
components are stripped, the key contains no `=` and does not start with
`#`. -/
def goodKV (p : Str × Str) : Prop :=
  pyStrip p.1 = p.1 ∧ pyStrip p.2 = p.2 ∧ '=' ∉ p.1 ∧ p.1.head? ≠ some '#'

/-- The overlapping-roots example: an artifact root `art` containing a
`customization` subdirectory holding one template file. -/
def fsOverlap : FS :=
  { dirs := [["art".data], ["art".data, "customization".data]],
    files := [(["art".data, "customization".data, "f.properties".data],
               FileRec.mk false true (some "x=1".data) true [] [])] }

/-! ### Sorting lemmas -/

theorem mem_insertSorted (le : α → α → Bool) (a x : α) (l : List α) :
    x ∈ insertSorted le a l ↔ x = a ∨ x ∈ l := by
  induction l with
  | nil => simp [insertSorted]
  | cons b bs ih =>
    simp only [insertSorted]
    split
    · simp [or_comm, or_assoc, or_left_comm]
    · simp [ih]
      tauto

theorem mem_sortBy (le : α → α → Bool) (x : α) (l : List α) :
    x ∈ sortBy le l ↔ x ∈ l := by
  induction l with
  | nil => simp [sortBy]
  | cons a as ih => simp [sortBy, mem_insertSorted, ih]

theorem sortBy_head_le (le : α → α → Bool)
    (htr : ∀ a b c, le a b = true → le b c = true → le a c = true)
    (hto : ∀ a b, le a b = true ∨ le b a = true) :
    ∀ l c t, sortBy le l = c :: t → ∀ x ∈ l, le c x = true := by
  intro l
  induction l with
  | nil => intro c t h; simp [sortBy] at h
  | cons a as ih =>
    intro c t h x hx
    simp only [sortBy] at h
    rcases hs : sortBy le as with _ | ⟨b, bs⟩
    · rw [hs] at h
      simp only [insertSorted] at h
      injection h with h1 h2
      subst h1
      rcases List.mem_cons.mp hx with hxa | hxs
      · rw [hxa]
        rcases hto a a with h' | h' <;> exact h'
      · exfalso
        have hmem : x ∈ sortBy le as := (mem_sortBy le x as).mpr hxs
        rw [hs] at hmem
        simp at hmem
    · rw [hs] at h
      have hbmin : ∀ y ∈ as, le b y = true := ih b bs hs
      simp only [insertSorted] at h
      by_cases hab : le a b = true
      · rw [if_pos hab] at h
        injection h with h1 h2
        subst h1
        rcases List.mem_cons.mp hx with hxa | hxs
        · rw [hxa]
          rcases hto a a with h' | h' <;> exact h'
        · exact htr a b x hab (hbmin x hxs)
      · rw [if_neg hab] at h
        injection h with h1 h2
        subst h1
        rcases List.mem_cons.mp hx with hxa | hxs
        · rw [hxa]
          rcases hto a b with h' | h'
          · exact absurd h' hab
          · exact h'
        · exact hbmin x hxs

/-! ### The candidate ordering is total and transitive -/

theorem strLe_total : ∀ s t : Str, strLe s t = true ∨ strLe t s = true := by
  intro s
  induction s with
  | nil => intro t; left; rfl
  | cons a as ih =>
    intro t
    cases t with
    | nil => right; rfl
    | cons b bs =>
      simp only [strLe]
      rcases Nat.lt_trichotomy a.toNat b.toNat with h | h | h
      · left; simp [h]
      · have h1 : ¬ a.toNat < b.toNat := by omega
        have h2 : ¬ b.toNat < a.toNat := by omega
        rcases ih bs with h3 | h3
        · left; simp [h1, h2, h3]
        · right; simp [h1, h2, h3]
      · right; simp [h]

theorem strLe_trans :
    ∀ s t u : Str, strLe s t = true → strLe t u = true → strLe s u = true := by
  intro s
  induction s with
  | nil => intro t u _ _; rfl
  | cons a as ih =>
    intro t u h1 h2
    cases t with
    | nil => simp [strLe] at h1
    | cons b bs =>
      cases u with
      | nil => simp [strLe] at h2
      | cons c cs =>
        simp only [strLe] at h1 h2 ⊢
        by_cases hab : a.toNat < b.toNat
        · by_cases hbc : b.toNat < c.toNat
          · simp [show a.toNat < c.toNat by omega]
          · by_cases hcb : c.toNat < b.toNat
            · simp [hbc, hcb] at h2
            · simp [show a.toNat < c.toNat by omega]
        · by_cases hba : b.toNat < a.toNat
          · simp [hab, hba] at h1
          · by_cases hbc : b.toNat < c.toNat
            · simp [show a.toNat < c.toNat by omega]
            · by_cases hcb : c.toNat < b.toNat
              · simp [hbc, hcb] at h2
              · have hac : ¬ a.toNat < c.toNat := by omega
                have hca : ¬ c.toNat < a.toNat := by omega
                simp only [hab, hba, if_neg, ite_false] at h1
                simp only [hbc, hcb, if_neg, ite_false] at h2
                simp [hac, hca, ih bs cs h1 h2]

theorem preferLe_iff (f g : CandFile) :
    preferLe f g = true ↔
      priorityOf f.name < priorityOf g.name ∨
      (priorityOf f.name = priorityOf g.name ∧
        f.name.length < g.name.length) ∨
      (priorityOf f.name = priorityOf g.name ∧
        f.name.length = g.name.length ∧ strLe f.name g.name = true) := by
  unfold preferLe
  split_ifs with h1 h2 h3 h4
  · simp [h1]
  · have hne : priorityOf f.name ≠ priorityOf g.name := by omega
    simp [h1, hne]
  · have he : priorityOf f.name = priorityOf g.name := by omega
    simp [h1, he, h3]
  · have he : priorityOf f.name = priorityOf g.name := by omega
    have hne : f.name.length ≠ g.name.length := by omega
    simp [h1, h3, he, hne]
  · have he : priorityOf f.name = priorityOf g.name := by omega
    have hle : f.name.length = g.name.length := by omega
    simp [h1, h3, he, hle]

theorem preferLe_total (f g : CandFile) :
    preferLe f g = true ∨ preferLe g f = true := by
  rw [preferLe_iff, preferLe_iff]
  rcases Nat.lt_trichotomy (priorityOf f.name) (priorityOf g.name) with h | h | h
  · exact Or.inl (Or.inl h)
  · rcases Nat.lt_trichotomy f.name.length g.name.length with h2 | h2 | h2
    · exact Or.inl (Or.inr (Or.inl ⟨h, h2⟩))
    · rcases strLe_total f.name g.name with h3 | h3
      · exact Or.inl (Or.inr (Or.inr ⟨h, h2, h3⟩))
      · exact Or.inr (Or.inr (Or.inr ⟨h.symm, h2.symm, h3⟩))
    · exact Or.inr (Or.inr (Or.inl ⟨h.symm, h2⟩))
  · exact Or.inr (Or.inl h)

theorem preferLe_trans (f g h : CandFile) :
    preferLe f g = true → preferLe g h = true → preferLe f h = true := by
  rw [preferLe_iff, preferLe_iff, preferLe_iff]
  intro ha hb
  rcases ha with h1 | ⟨h1, h2⟩ | ⟨h1, h2, h3⟩ <;>
    rcases hb with k1 | ⟨k1, k2⟩ | ⟨k1, k2, k3⟩ <;>
    first
    | exact Or.inl (by omega)
    | exact Or.inr (Or.inl ⟨by omega, by omega⟩)
    | exact Or.inr (Or.inr ⟨by omega, by omega, strLe_trans _ _ _ h3 k3⟩)

/-! ### Claim C1 -/

/-- C1 as stated is false: with a single text-decodable collected file
`readme.md` whose extension is outside the allow-list, the Candidate
Selector returns `None` — it does not fall back to the unfiltered
text-decodable file set. -/
theorem claim_C1_counterexample :
    (CandFile.mk "art/readme.md".data "readme.md".data true true
        (some "x=1".data)).isText = true ∧
    lowerSuffix (CandFile.mk "art/readme.md".data "readme.md".data true true
        (some "x=1".data)).name ∉ allowedSuffixes ∧
    selectChosen [CandFile.mk "art/readme.md".data "readme.md".data true true
        (some "x=1".data)] = none := by
  refine ⟨rfl, by decide, rfl⟩

/-- C1 amended: if no text-decodable collected file has an extension in
the allow-list, the Candidate Selector returns `None` (the working set is
emptied; there is no fallback to the unfiltered text-decodable set). -/
theorem claim_C1 (files : List CandFile)
    (h : ∀ f ∈ files, f.isFile = true → f.isText = true →
      lowerSuffix f.name ∉ allowedSuffixes) :
    selectChosen files = none := by
  have hpri :
      (files.filter (fun f => f.isFile && f.isText)).filter
        (fun f => decide (lowerSuffix f.name ∈ allowedSuffixes)) = [] := by
    rw [List.filter_eq_nil_iff]
    intro f hf
    have hmem := List.mem_filter.mp hf
    have h1 : f.isFile = true ∧ f.isText = true := by
      have := hmem.2; simp at this; exact this
    simpa using h f hmem.1 h1.1 h1.2
  simp [selectChosen, workingSet, hpri, sortBy]

/-- Witness for C1 at a concrete input. -/
theorem claim_C1_witness :
    (∀ f ∈ [CandFile.mk "art/notes.md".data "notes.md".data true true
        (some "a=b".data)], f.isFile = true → f.isText = true →
      lowerSuffix f.name ∉ allowedSuffixes) ∧
    selectChosen [CandFile.mk "art/notes.md".data "notes.md".data true true
        (some "a=b".data)] = none := by
  refine ⟨by decide, claim_C1 _ (by decide)⟩

/-! ### Claim C4 -/

theorem priorityOf_eq_zero (n : Str) :
    priorityOf n = 0 ↔ lowerSuffix n = ".properties".data := by
  simp only [priorityOf]
  split_ifs with h1 h2 <;> simp_all

/-- C4 as stated is false: a collected set holding a non-text-decodable
`a.properties` and a text-decodable `b.txt` makes the selector choose
`b.txt`, whose extension differs from `.properties`. -/
theorem claim_C4_counterexample :
    (∃ f ∈ [CandFile.mk "art/a.properties".data "a.properties".data true false
              none,
            CandFile.mk "art/b.txt".data "b.txt".data true true
              (some "y=2".data)],
      lowerSuffix f.name = ".properties".data) ∧
    (selectChosen [CandFile.mk "art/a.properties".data "a.properties".data true
        false none,
      CandFile.mk "art/b.txt".data "b.txt".data true true
        (some "y=2".data)]).map (fun c => lowerSuffix c.name) =
      some ".txt".data := by
  constructor
  · exact ⟨_, List.mem_cons_self _ _, by decide⟩
  · rfl

/-- C4 amended: if at least one collected file is a text-decodable regular
file with extension `.properties`, the chosen candidate has extension
`.properties`; the chosen candidate belongs to the filtered working set
and is minimal in it for the `prefer_key` ordering
(extension priority, name length, name). -/
theorem claim_C4 (files : List CandFile) (c : CandFile)
    (hex : ∃ f ∈ files, f.isFile = true ∧ f.isText = true ∧
      lowerSuffix f.name = ".properties".data)
    (hc : selectChosen files = some c) :
    lowerSuffix c.name = ".properties".data ∧ c ∈ workingSet files ∧
      ∀ f ∈ workingSet files, preferLe c f = true := by
  obtain ⟨f0, hf0, hfile, htext, hsuf⟩ := hex
  have hf0c : f0 ∈ files.filter (fun f => f.isFile && f.isText) :=
    List.mem_filter.mpr ⟨hf0, by simp [hfile, htext]⟩
  have hf0p : f0 ∈ (files.filter (fun f => f.isFile && f.isText)).filter
      (fun f => decide (lowerSuffix f.name ∈ allowedSuffixes)) := by
    refine List.mem_filter.mpr ⟨hf0c, ?_⟩
    rw [hsuf]
    decide
  have hws : workingSet files = (files.filter (fun f => f.isFile && f.isText)).filter
      (fun f => decide (lowerSuffix f.name ∈ allowedSuffixes)) := by
    unfold workingSet
    rw [if_neg]
    intro hemp
    rw [List.isEmpty_iff] at hemp
    rw [hemp] at hf0p
    simp at hf0p
  have hf0w : f0 ∈ workingSet files := by rw [hws]; exact hf0p
  unfold selectChosen at hc
  rcases hsort : sortBy preferLe (workingSet files) with _ | ⟨c', t⟩
  · rw [hsort] at hc; simp at hc
  · rw [hsort] at hc
    simp only [List.head?] at hc
    injection hc with hc'
    rw [hc'] at hsort
    have hmin : ∀ x ∈ workingSet files, preferLe c x = true :=
      sortBy_head_le preferLe preferLe_trans preferLe_total _ c t hsort
    have hcw : c ∈ workingSet files := by
      have hm : c ∈ sortBy preferLe (workingSet files) := by
        rw [hsort]; exact List.mem_cons_self _ _
      exact (mem_sortBy _ _ _).mp hm
    refine ⟨?_, hcw, hmin⟩
    have hle := hmin f0 hf0w
    have hp0 : priorityOf f0.name = 0 := (priorityOf_eq_zero _).mpr hsuf
    rw [← priorityOf_eq_zero]
    rw [preferLe_iff] at hle
    rcases hle with h1 | ⟨h1, _⟩ | ⟨h1, _, _⟩ <;> omega

/-- Witness for C4 at a concrete input. -/
theorem claim_C4_witness :
    lowerSuffix (CandFile.mk "art/a.properties".data "a.properties".data true
        true (some "x=1".data)).name = ".properties".data ∧
    (lowerSuffix (CandFile.mk "art/a.properties".data "a.properties".data true
        true (some "x=1".data)).name = ".properties".data ∧
      CandFile.mk "art/a.properties".data "a.properties".data true true
          (some "x=1".data) ∈
        workingSet [CandFile.mk "art/a.properties".data "a.properties".data
            true true (some "x=1".data),
          CandFile.mk "art/b.txt".data "b.txt".data true true
            (some "y=2".data)] ∧
      ∀ f ∈ workingSet [CandFile.mk "art/a.properties".data
            "a.properties".data true true (some "x=1".data),
          CandFile.mk "art/b.txt".data "b.txt".data true true
            (some "y=2".data)],
        preferLe (CandFile.mk "art/a.properties".data "a.properties".data true
          true (some "x=1".data)) f = true) := by
  refine ⟨by decide, claim_C4 _ _ ⟨_, List.mem_cons_self _ _, by decide⟩ rfl⟩

/-! ### Claim C2 -/

theorem workingSet_isEmpty_false {files : List CandFile} {c : CandFile}
    (hc : (sortBy preferLe (workingSet files)).head? = some c) :
    (workingSet files).isEmpty = false := by
  cases hws : (workingSet files).isEmpty
  · rfl
  · exfalso
    rw [List.isEmpty_iff] at hws
    rw [hws] at hc
    simp [sortBy] at hc

/-- C2 as stated is false: with a chosen candidate whose read fails and a
readable fallback holding `k=v`, the fallback content is used but the
emitted status is `ready`, not `fallback`. -/
theorem claim_C2_counterexample :
    ((resolveRun
        [CandFile.mk "art/a.properties".data "a.properties".data true true
          none]
        (some (FallbackFile.mk "fb.properties".data true
          (some "k=v".data)))).toOption.map RunResult.status) =
      some statusReady ∧
    statusReady ≠ statusFallback ∧
    ((resolveRun
        [CandFile.mk "art/a.properties".data "a.properties".data true true
          none]
        (some (FallbackFile.mk "fb.properties".data true
          (some "k=v".data)))).toOption.map RunResult.content) =
      some (some "k=v".data) := by
  refine ⟨rfl, by decide, rfl⟩

/-- C2 amended: when a candidate was chosen but reading it fails and the
fallback path names an existing readable file, the fallback file's content
is indeed used (and its path reported as the source), but the emitted
status stays `ready` — downgraded to `empty` when the parsed override map
is empty — and is never `fallback`; `fallback` is emitted only when no
candidate was chosen at all. -/
theorem claim_C2 (files : List CandFile) (fb : FallbackFile) (c : CandFile)
    (t : Str)
    (hc : (sortBy preferLe (workingSet files)).head? = some c)
    (hread : c.content = none)
    (hfb : fb.isFile = true) (hft : fb.content = some t) :
    resolveRun files (some fb) = .ok (finishRun statusReady t fb.pathStr) ∧
    (finishRun statusReady t fb.pathStr).content = some t ∧
    (finishRun statusReady t fb.pathStr).source = some fb.pathStr ∧
    (finishRun statusReady t fb.pathStr).status =
      (if (parseOverridesText t).isEmpty then statusEmpty
       else statusReady) ∧
    (finishRun statusReady t fb.pathStr).status ≠ statusFallback := by
  have hne := workingSet_isEmpty_false hc
  have hrm : ¬ statusReady = statusMissing := by decide
  refine ⟨?_, rfl, rfl, ?_, ?_⟩
  · simp only [resolveRun, hc, hread, hne, hfb, hft]
    simp [hrm]
  · simp only [finishRun]
    have hrr : statusReady = statusReady := rfl
    by_cases hov : (parseOverridesText t).isEmpty
    · simp [hov]
    · simp [hov]
  · simp only [finishRun]
    by_cases hov : (parseOverridesText t).isEmpty
    · simp only [hov]
      simp
      decide
    · simp [hov]
      decide

/-- Witness for C2 at a concrete input. -/
theorem claim_C2_witness :
    (sortBy preferLe (workingSet
        [CandFile.mk "art/a.properties".data "a.properties".data true true
          none])).head? =
      some (CandFile.mk "art/a.properties".data "a.properties".data true true
        none) ∧
    (resolveRun
        [CandFile.mk "art/a.properties".data "a.properties".data true true
          none]
        (some (FallbackFile.mk "fb.properties".data true
          (some "k=v".data))) =
      .ok (finishRun statusReady "k=v".data "fb.properties".data) ∧
    (finishRun statusReady "k=v".data "fb.properties".data).content =
      some "k=v".data ∧
    (finishRun statusReady "k=v".data "fb.properties".data).source =
      some "fb.properties".data ∧
    (finishRun statusReady "k=v".data "fb.properties".data).status =
      (if (parseOverridesText "k=v".data).isEmpty then statusEmpty
       else statusReady) ∧
    (finishRun statusReady "k=v".data "fb.properties".data).status ≠
      statusFallback) := by
  exact ⟨rfl, claim_C2 _ _ _ _ rfl rfl rfl rfl⟩

/-! ### Claim C7 -/

/-- C7 confirmed: when content is available and the parsed override map is
empty, a `ready` status is downgraded to `empty`, while a `fallback`
status is never downgraded. -/
theorem claim_C7 :
    (∀ (files : List CandFile) (fb : Option FallbackFile) (c : CandFile)
        (t : Str),
      (sortBy preferLe (workingSet files)).head? = some c →
      c.content = some t →
      (parseOverridesText t).isEmpty = true →
      ∃ r, resolveRun files fb = .ok r ∧ r.status = statusEmpty) ∧
    (∀ (files : List CandFile) (fb : FallbackFile) (t : Str),
      workingSet files = [] →
      fb.isFile = true →
      fb.content = some t →
      (parseOverridesText t).isEmpty = true →
      ∃ r, resolveRun files (some fb) = .ok r ∧
        r.status = statusFallback) := by
  constructor
  · intro files fb c t hc hct hov
    have hne := workingSet_isEmpty_false hc
    refine ⟨finishRun statusReady t c.pathStr, ?_, ?_⟩
    · simp only [resolveRun, hc, hct, hne]
      simp
    · simp [finishRun, hov]
  · intro files fb t hws hfb hft hov
    refine ⟨finishRun statusFallback t fb.pathStr, ?_, ?_⟩
    · have hmm : statusMissing = statusMissing := rfl
      simp only [resolveRun, hws, hfb, hft]
      simp [sortBy]
    · simp only [finishRun, hov]
      have hfr : ¬ statusFallback = statusReady := by decide
      simp [hfr]

/-- Witness for C7 at concrete inputs. -/
theorem claim_C7_witness :
    ((sortBy preferLe (workingSet
        [CandFile.mk "a.properties".data "a.properties".data true true
          (some "## none".data)])).head? =
      some (CandFile.mk "a.properties".data "a.properties".data true true
        (some "## none".data)) ∧
     ∃ r, resolveRun
        [CandFile.mk "a.properties".data "a.properties".data true true
          (some "## none".data)] none = .ok r ∧
        r.status = statusEmpty) ∧
    (workingSet ([] : List CandFile) = [] ∧
     ∃ r, resolveRun []
        (some (FallbackFile.mk "fb.txt".data true (some "# hi".data))) =
          .ok r ∧
        r.status = statusFallback) := by
  refine ⟨⟨rfl, claim_C7.1 _ none _ _ rfl rfl rfl⟩,
          ⟨rfl, claim_C7.2 _ _ _ rfl rfl rfl rfl⟩⟩

/-! ### Claim C10 -/

theorem lookup_emitList_ne (k key v : Str) (rest : List (Str × Str))
    (h : (k == key) = false) :
    (emitList ((key, v) :: rest)).lookup k = (emitList rest).lookup k := by
  unfold emitList
  rw [List.filter_cons]
  split
  · simp [List.lookup, h]
  · rfl

theorem lookup_emitList_self (k v : Str) (rest : List (Str × Str)) :
    (emitList ((k, v) :: rest)).lookup k =
      if v.isEmpty then (emitList rest).lookup k else some v := by
  unfold emitList
  rw [List.filter_cons]
  by_cases hv : v.isEmpty
  · simp [hv]
  · simp only [hv]
    simp [List.lookup]

theorem lookup3_finishRun (st t src : Str) (k : Str)
    (hk : k = "icf_overrides_json_b64".data ∨
      k = "icf_overrides_qa_json_b64".data ∨
      k = "icf_overrides_prod_json_b64".data) :
    (finishRun st t src).outputs.lookup k =
      (if (b64utf8 (jsonDumps (parseOverridesText t))).isEmpty then none
       else some (b64utf8 (jsonDumps (parseOverridesText t)))) := by
  rcases hk with rfl | rfl | rfl
  · simp only [finishRun]
    rw [lookup_emitList_ne _ _ _ _ (by decide),
        lookup_emitList_ne _ _ _ _ (by decide),
        lookup_emitList_ne _ _ _ _ (by decide),
        lookup_emitList_ne _ _ _ _ (by decide),
        lookup_emitList_self,
        lookup_emitList_ne _ _ _ _ (by decide),
        lookup_emitList_ne _ _ _ _ (by decide),
        lookup_emitList_ne _ _ _ _ (by decide)]
    simp [emitList, List.lookup]
  · simp only [finishRun]
    rw [lookup_emitList_ne _ _ _ _ (by decide),
        lookup_emitList_ne _ _ _ _ (by decide),
        lookup_emitList_ne _ _ _ _ (by decide),
        lookup_emitList_ne _ _ _ _ (by decide),
        lookup_emitList_ne _ _ _ _ (by decide),
        lookup_emitList_self,
        lookup_emitList_ne _ _ _ _ (by decide),
        lookup_emitList_ne _ _ _ _ (by decide)]
    simp [emitList, List.lookup]
  · simp only [finishRun]
    rw [lookup_emitList_ne _ _ _ _ (by decide),
        lookup_emitList_ne _ _ _ _ (by decide),
        lookup_emitList_ne _ _ _ _ (by decide),
        lookup_emitList_ne _ _ _ _ (by decide),
        lookup_emitList_ne _ _ _ _ (by decide),
        lookup_emitList_ne _ _ _ _ (by decide),
        lookup_emitList_self,
        lookup_emitList_ne _ _ _ _ (by decide)]
    simp [emitList, List.lookup]

theorem lookup3_noContentRun (st : Str) (k : Str)
    (hk : k = "icf_overrides_json_b64".data ∨
      k = "icf_overrides_qa_json_b64".data ∨
      k = "icf_overrides_prod_json_b64".data) :
    (noContentRun st).outputs.lookup k = none := by
  have hne : (k == "icf_template_status".data) = false := by
    rcases hk with rfl | rfl | rfl <;> decide
  simp only [noContentRun]
  rw [lookup_emitList_ne _ _ _ _ hne]
  simp [emitList, List.lookup]

theorem resolveRun_shape (files : List CandFile) (fb : Option FallbackFile)
    (r : RunResult) (h : resolveRun files fb = .ok r) :
    (∃ st t src, r = finishRun st t src) ∨ ∃ st, r = noContentRun st := by
  simp only [resolveRun] at h
  rcases hch : (sortBy preferLe (workingSet files)).head? with _ | c <;>
    rw [hch] at h
  · dsimp only at h
    rcases fb with _ | fb
    · dsimp only at h
      right
      injection h with h'
      exact ⟨_, h'.symm⟩
    · dsimp only at h
      cases hfb : fb.isFile <;> rw [hfb] at h <;> simp only [Bool.false_eq_true,
        if_false, if_true] at h
      · right
        injection h with h'
        exact ⟨_, h'.symm⟩
      · rcases hfc : fb.content with _ | t <;> rw [hfc] at h <;>
          dsimp only at h
        · exact absurd h (by simp)
        · left
          injection h with h'
          exact ⟨_, _, _, h'.symm⟩
  · dsimp only at h
    rcases hcc : c.content with _ | t <;> rw [hcc] at h <;> dsimp only at h
    · rcases fb with _ | fb
      · dsimp only at h
        right
        injection h with h'
        exact ⟨_, h'.symm⟩
      · dsimp only at h
        cases hfb : fb.isFile <;> rw [hfb] at h <;>
          simp only [Bool.false_eq_true, if_false, if_true] at h
        · right
          injection h with h'
          exact ⟨_, h'.symm⟩
        · rcases hfc : fb.content with _ | t <;> rw [hfc] at h <;>
            dsimp only at h
          · exact absurd h (by simp)
          · left
            injection h with h'
            exact ⟨_, _, _, h'.symm⟩
    · left
      injection h with h'
      exact ⟨_, _, _, h'.symm⟩

/-- C10 confirmed: whenever the engine returns a result, the values
associated with `icf_overrides_json_b64`, `icf_overrides_qa_json_b64` and
`icf_overrides_prod_json_b64` in the emitted outputs are identical (all
three present with the same base64 string, or all three absent). -/
theorem claim_C10 (files : List CandFile) (fb : Option FallbackFile)
    (r : RunResult) (h : resolveRun files fb = .ok r) :
    r.outputs.lookup "icf_overrides_json_b64".data =
      r.outputs.lookup "icf_overrides_qa_json_b64".data ∧
    r.outputs.lookup "icf_overrides_json_b64".data =
      r.outputs.lookup "icf_overrides_prod_json_b64".data := by
  rcases resolveRun_shape files fb r h with ⟨st, t, src, rfl⟩ | ⟨st, rfl⟩
  · rw [lookup3_finishRun st t src _ (Or.inl rfl),
        lookup3_finishRun st t src _ (Or.inr (Or.inl rfl)),
        lookup3_finishRun st t src _ (Or.inr (Or.inr rfl))]
    exact ⟨rfl, rfl⟩
  · rw [lookup3_noContentRun st _ (Or.inl rfl),
        lookup3_noContentRun st _ (Or.inr (Or.inl rfl)),
        lookup3_noContentRun st _ (Or.inr (Or.inr rfl))]
    exact ⟨rfl, rfl⟩

/-- Witness for C10 at a concrete input. -/
theorem claim_C10_witness :
    resolveRun
        [CandFile.mk "art/a.properties".data "a.properties".data true true
          (some "x=1".data)] none =
      .ok (finishRun statusReady "x=1".data "art/a.properties".data) ∧
    ((finishRun statusReady "x=1".data
        "art/a.properties".data).outputs.lookup
          "icf_overrides_json_b64".data =
      (finishRun statusReady "x=1".data
        "art/a.properties".data).outputs.lookup
          "icf_overrides_qa_json_b64".data ∧
     (finishRun statusReady "x=1".data
        "art/a.properties".data).outputs.lookup
          "icf_overrides_json_b64".data =
      (finishRun statusReady "x=1".data
        "art/a.properties".data).outputs.lookup
          "icf_overrides_prod_json_b64".data) := by
  exact ⟨rfl, claim_C10
    [CandFile.mk "art/a.properties".data "a.properties".data true true
      (some "x=1".data)] none
    (finishRun statusReady "x=1".data "art/a.properties".data) rfl⟩

/-! ### Claim C5 -/

theorem present_extractInto (fs : FS) (target : FPath) (fr : FileRec) :
    (fs.extractInto target fr).present target = true := by
  simp [FS.extractInto, FS.present, FS.isDir]

/-- C5 confirmed: archive expansion is idempotent.  Whenever the expansion
step succeeds it produces the destination `expandTarget` (the path with
its extension stripped, or `<name>_extracted` without one), and running
the step again on the resulting filesystem returns the same destination
with the filesystem unchanged — in particular, when the destination
already exists nothing is re-extracted. -/
theorem claim_C5 (fs : FS) (e : FPath) (fr : FileRec) (fs1 : FS) (t : FPath)
    (h : expandStep fs e fr = .ok (fs1, t)) :
    t = expandTarget e ∧ expandStep fs1 e fr = .ok (fs1, t) := by
  unfold expandStep at h ⊢
  by_cases hp : fs.present (expandTarget e) = true
  · rw [if_pos hp] at h
    injection h with h'
    injection h' with h1 h2
    subst h1
    subst h2
    rw [if_pos hp]
    exact ⟨rfl, rfl⟩
  · rw [if_neg hp] at h
    by_cases hz : fr.zipOk = true
    · rw [if_pos hz] at h
      injection h with h'
      injection h' with h1 h2
      subst h1
      subst h2
      rw [if_pos (present_extractInto fs (expandTarget e) fr)]
      exact ⟨rfl, rfl⟩
    · rw [if_neg hz] at h
      exact absurd h (by simp)

/-- Witness for C5 at a concrete input. -/
theorem claim_C5_witness :
    expandStep
        (FS.mk [["a".data]]
          [(["a".data, "x.zip".data], FileRec.mk true false none true [] [])])
        ["a".data, "x.zip".data] (FileRec.mk true false none true [] []) =
      .ok ((FS.mk [["a".data]]
          [(["a".data, "x.zip".data],
            FileRec.mk true false none true [] [])]).extractInto
            ["a".data, "x".data] (FileRec.mk true false none true [] []),
        ["a".data, "x".data]) ∧
    (["a".data, "x".data] = expandTarget ["a".data, "x.zip".data] ∧
     expandStep
        ((FS.mk [["a".data]]
          [(["a".data, "x.zip".data],
            FileRec.mk true false none true [] [])]).extractInto
            ["a".data, "x".data] (FileRec.mk true false none true [] []))
        ["a".data, "x.zip".data] (FileRec.mk true false none true [] []) =
      .ok ((FS.mk [["a".data]]
          [(["a".data, "x.zip".data],
            FileRec.mk true false none true [] [])]).extractInto
            ["a".data, "x".data] (FileRec.mk true false none true [] []),
        ["a".data, "x".data])) := by
  exact ⟨rfl, claim_C5
    (FS.mk [["a".data]]
      [(["a".data, "x.zip".data], FileRec.mk true false none true [] [])])
    ["a".data, "x.zip".data] (FileRec.mk true false none true [] [])
    ((FS.mk [["a".data]]
      [(["a".data, "x.zip".data],
        FileRec.mk true false none true [] [])]).extractInto
        ["a".data, "x".data] (FileRec.mk true false none true [] []))
    ["a".data, "x".data] rfl⟩

/-! ### Claim C9 -/

theorem FS.getFile_mem {fs : FS} {p : FPath} {fr : FileRec}
    (h : fs.getFile p = some fr) : (p, fr) ∈ fs.files := by
  unfold FS.getFile at h
  cases hf : fs.files.find? (fun q => decide (q.1 = p)) with
  | none => rw [hf] at h; simp at h
  | some q =>
    rw [hf] at h
    simp at h
    have hm := List.mem_of_find?_eq_some hf
    have hp := List.find?_some hf
    simp at hp
    cases q with
    | mk q1 q2 =>
      simp only at hp h
      subst hp
      subst h
      exact hm

theorem FS.isFile_of_getFile {fs : FS} {p : FPath} {fr : FileRec}
    (h : fs.getFile p = some fr) : fs.isFile p = true := by
  simp [FS.isFile, h]

theorem processEntries_error (fs : FS) (e : FPath) (fr : FileRec)
    (hget : fs.getFile e = some fr) (hsz : fr.sigZip = true)
    (hcor : fr.zipOk = false)
    (htar : fs.present (expandTarget e) = false)
    (hdir : fs.isDir e = false)
    (honly : ∀ pr ∈ fs.files, pr.2.sigZip = true → pr.1 = e) :
    ∀ entries, e ∈ entries → processEntries fs entries = .error () := by
  intro entries he
  induction entries with
  | nil => simp at he
  | cons p ps ih =>
    by_cases hpe : p = e
    · subst hpe
      simp [processEntries, hdir, hget, hsz, expandStep, htar, hcor]
    · have hps : e ∈ ps := by
        rcases List.mem_cons.mp he with h' | h'
        · exact absurd h'.symm hpe
        · exact h'
      by_cases hd : fs.isDir p = true
      · simp [processEntries, hd, ih hps, Except.map]
      · simp only [processEntries, hd, if_false, Bool.false_eq_true]
        cases hg : fs.getFile p with
        | none => exact ih hps
        | some fr' =>
          by_cases hz : fr'.sigZip = true
          · exact absurd (honly (p, fr') (FS.getFile_mem hg) hz) hpe
          · simp only [hz, if_false, Bool.false_eq_true]
            simp [ih hps, Except.map]

/-- C9 confirmed: a corrupt archive (zip signature accepted but extraction
failing) whose destination does not already exist makes the collector
return the error rather than skipping the file, and the whole `main` run
aborts with that error. -/
theorem claim_C9 (fuel : Nat) (fs : FS) (root e : FPath) (fr : FileRec)
    (fb : Option FallbackFile)
    (hfuel : 1 ≤ fuel)
    (hroot : fs.isDir root = true)
    (hrootf : fs.isFile root = false)
    (hchild : isChildOf root e = true)
    (hget : fs.getFile e = some fr)
    (hsz : fr.sigZip = true) (hcor : fr.zipOk = false)
    (htar : fs.present (expandTarget e) = false)
    (hdir : fs.isDir e = false)
    (honly : ∀ pr ∈ fs.files, pr.2.sigZip = true → pr.1 = e)
    (hr1 : fs.present (root ++ ["customization-template".data]) = false)
    (hr2 : fs.present (root ++ ["customization".data]) = false) :
    collect_candidates fuel fs root = .error .zip ∧
    mainRun fuel fs root fb = .error .zip := by
  have hmemk : e ∈ fs.files.map Prod.fst :=
    List.mem_map.mpr ⟨(e, fr), FS.getFile_mem hget, rfl⟩
  have hcp : e ∈ fs.childPaths root := by
    unfold FS.childPaths
    rw [List.mem_dedup]
    exact List.mem_filter.mpr
      ⟨List.mem_append.mpr (Or.inr hmemk), hchild⟩
  have hpe : processEntries fs (fs.childPaths root) = .error () :=
    processEntries_error fs e fr hget hsz hcor htar hdir honly _ hcp
  obtain ⟨n, rfl⟩ : ∃ n, fuel = n + 1 := by
    cases fuel with
    | zero => omega
    | succ n => exact ⟨n, rfl⟩
  have hpr : fs.present root = true := by simp [FS.present, hroot]
  have hcc : collect_candidates (n + 1) fs root = .error .zip := by
    unfold collect_candidates
    rw [if_neg (by simp [hpr])]
    simp only [collectAux]
    rw [if_neg (by simp [hpr]), if_neg (by simp [hrootf]), hpe]
  refine ⟨hcc, ?_⟩
  have h1 : collect_candidates (n + 1) fs
      (root ++ ["customization-template".data]) = .ok (fs, [], []) := by
    unfold collect_candidates
    rw [if_pos (by simp [hr1])]
  have h2 : collect_candidates (n + 1) fs
      (root ++ ["customization".data]) = .ok (fs, [], []) := by
    unfold collect_candidates
    rw [if_pos (by simp [hr2])]
  have hmc : mainCollect (n + 1) fs root = .error .zip := by
    unfold mainCollect searchRoots
    simp only [collectRoots]
    rw [h1]
    simp only [collectRoots]
    rw [h2]
    simp only [collectRoots]
    rw [hcc]
    rfl
  unfold mainRun
  rw [hmc]

/-- Witness for C9 at a concrete input. -/
theorem claim_C9_witness :
    (FS.mk [["art".data]]
      [(["art".data, "bad.zip".data],
        FileRec.mk true false none false [] [])]).isDir ["art".data] = true ∧
    (collect_candidates 1
        (FS.mk [["art".data]]
          [(["art".data, "bad.zip".data],
            FileRec.mk true false none false [] [])]) ["art".data] =
      .error .zip ∧
     mainRun 1
        (FS.mk [["art".data]]
          [(["art".data, "bad.zip".data],
            FileRec.mk true false none false [] [])]) ["art".data] none =
      .error .zip) := by
  refine ⟨by decide, claim_C9 1 _ ["art".data] ["art".data, "bad.zip".data]
    (FileRec.mk true false none false [] []) none (by decide) (by decide)
    rfl (by decide) rfl rfl rfl rfl rfl ?_ rfl rfl⟩
  intro pr hpr _
  rw [List.mem_singleton] at hpr
  rw [hpr]

/-! ### String-stripping lemmas -/

theorem length_dropWhile_le (p : α → Bool) (l : List α) :
    (l.dropWhile p).length ≤ l.length :=
  (List.dropWhile_sublist p).length_le

theorem dropWhile_eq_self_of_length (p : α → Bool) :
    ∀ l : List α, (l.dropWhile p).length = l.length → l.dropWhile p = l := by
  intro l h
  induction l with
  | nil => rfl
  | cons c cs ih =>
    rw [List.dropWhile_cons] at h ⊢
    by_cases hp : p c = true
    · exfalso
      rw [if_pos hp] at h
      rw [List.length_cons] at h
      have hle := length_dropWhile_le p cs
      omega
    · rw [if_neg hp]

theorem length_pyLstrip_le (s : Str) : (pyLstrip s).length ≤ s.length :=
  length_dropWhile_le _ s

theorem length_pyRstrip_le (s : Str) : (pyRstrip s).length ≤ s.length := by
  unfold pyRstrip
  rw [List.length_reverse]
  calc (s.reverse.dropWhile isSpaceChar).length ≤ s.reverse.length :=
        length_dropWhile_le _ _
    _ = s.length := List.length_reverse s

theorem pyStrip_parts {s : Str} (h : pyStrip s = s) :
    pyLstrip s = s ∧ pyRstrip s = s := by
  have h1 : (pyStrip s).length ≤ (pyLstrip s).length := length_pyRstrip_le _
  have h2 : (pyLstrip s).length ≤ s.length := length_pyLstrip_le s
  have hL : (pyLstrip s).length = s.length := by rw [h] at h1; omega
  have hls : pyLstrip s = s := dropWhile_eq_self_of_length _ s hL
  refine ⟨hls, ?_⟩
  unfold pyStrip at h
  rw [hls] at h
  exact h

theorem head_cons_eq (a : α) (l : List α) : (a :: l).head? = some a := rfl

theorem pyLstrip_head {s : Str} {c : Char} (h : pyLstrip s = s)
    (hc : s.head? = some c) : isSpaceChar c = false := by
  cases s with
  | nil => simp at hc
  | cons a rest =>
    rw [head_cons_eq] at hc
    injection hc with hc'
    subst hc'
    cases hsp : isSpaceChar a
    · rfl
    · exfalso
      unfold pyLstrip at h
      rw [List.dropWhile_cons, if_pos hsp] at h
      have hle := length_dropWhile_le isSpaceChar rest
      have hlen := congrArg List.length h
      rw [List.length_cons] at hlen
      omega

theorem pyLstrip_of_head {s : Str} {c : Char} (hc : s.head? = some c)
    (hsp : isSpaceChar c = false) : pyLstrip s = s := by
  cases s with
  | nil => rfl
  | cons a rest =>
    rw [head_cons_eq] at hc
    injection hc with hc'
    subst hc'
    unfold pyLstrip
    rw [List.dropWhile_cons, if_neg (by simp [hsp])]

theorem pyRstrip_eq_self_iff (s : Str) :
    pyRstrip s = s ↔ pyLstrip s.reverse = s.reverse := by
  unfold pyRstrip pyLstrip
  constructor
  · intro h
    have := congrArg List.reverse h
    rwa [List.reverse_reverse] at this
  · intro h
    rw [h, List.reverse_reverse]

theorem pyRstrip_last {s : Str} {c : Char} (h : pyRstrip s = s)
    (hc : s.getLast? = some c) : isSpaceChar c = false := by
  rw [pyRstrip_eq_self_iff] at h
  rw [← List.head?_reverse] at hc
  exact pyLstrip_head h hc

theorem pyRstrip_of_last {s : Str} {c : Char} (hc : s.getLast? = some c)
    (hsp : isSpaceChar c = false) : pyRstrip s = s := by
  rw [pyRstrip_eq_self_iff]
  rw [← List.head?_reverse] at hc
  exact pyLstrip_of_head hc hsp

theorem pyStrip_of_ends {s : Str}
    (hh : ∀ c, s.head? = some c → isSpaceChar c = false)
    (hl : ∀ c, s.getLast? = some c → isSpaceChar c = false) :
    pyStrip s = s := by
  cases s with
  | nil => rfl
  | cons a rest =>
    have h1 : pyLstrip (a :: rest) = a :: rest :=
      pyLstrip_of_head (head_cons_eq a rest) (hh a (head_cons_eq a rest))
    unfold pyStrip
    rw [h1]
    rcases hg : (a :: rest).getLast? with _ | c
    · simp at hg
    · exact pyRstrip_of_last hg (hl c hg)

theorem dropWhile_append_last {p : α → Bool} {c : α} (hc : p c = false) :
    ∀ xs : List α, (xs ++ [c]).dropWhile p = xs.dropWhile p ++ [c] := by
  intro xs
  induction xs with
  | nil => simp [List.dropWhile_cons, hc]
  | cons x l ih =>
    rw [List.cons_append, List.dropWhile_cons, List.dropWhile_cons]
    split
    · exact ih
    · rfl

theorem pyRstrip_cons_of {c : Char} (hc : isSpaceChar c = false)
    (l : Str) : pyRstrip (c :: l) = c :: pyRstrip l := by
  unfold pyRstrip
  rw [List.reverse_cons, dropWhile_append_last hc, List.reverse_append]
  rfl

theorem dropWhile_head_false {p : α → Bool} :
    ∀ {l : List α} {c : α} {t : List α}, l.dropWhile p = c :: t →
      p c = false := by
  intro l
  induction l with
  | nil => intro c t h; simp at h
  | cons a rest ih =>
    intro c t h
    rw [List.dropWhile_cons] at h
    split at h
    · exact ih h
    · injection h with h1 h2
      subst h1
      simp_all

theorem dropWhile_idem (p : α → Bool) (l : List α) :
    (l.dropWhile p).dropWhile p = l.dropWhile p := by
  rcases hd : l.dropWhile p with _ | ⟨c, t⟩
  · rfl
  · rw [List.dropWhile_cons, if_neg]
    simp [dropWhile_head_false hd]

theorem pyRstrip_idem (l : Str) : pyRstrip (pyRstrip l) = pyRstrip l := by
  unfold pyRstrip
  rw [List.reverse_reverse, dropWhile_idem]

theorem pyStrip_idem (s : Str) : pyStrip (pyStrip s) = pyStrip s := by
  rcases hls : pyLstrip s with _ | ⟨c, rest⟩
  · unfold pyStrip
    rw [hls]
    rfl
  · have hc : isSpaceChar c = false := dropWhile_head_false hls
    have h1 : pyStrip s = c :: pyRstrip rest := by
      unfold pyStrip
      rw [hls]
      exact pyRstrip_cons_of hc rest
    rw [h1]
    unfold pyStrip
    rw [pyLstrip_of_head (head_cons_eq c (pyRstrip rest)) hc,
        pyRstrip_cons_of hc, pyRstrip_idem]

theorem mem_pyStrip {x : Char} {s : Str} (h : x ∈ pyStrip s) : x ∈ s := by
  unfold pyStrip pyRstrip pyLstrip at h
  rw [List.mem_reverse] at h
  have h1 := (List.dropWhile_sublist isSpaceChar).mem h
  rw [List.mem_reverse] at h1
  exact (List.dropWhile_sublist isSpaceChar).mem h1

theorem takeWhile_append_all {p : α → Bool} {k : List α}
    (hk : ∀ c ∈ k, p c = true) (rest : List α) :
    (k ++ rest).takeWhile p = k ++ rest.takeWhile p := by
  induction k with
  | nil => rfl
  | cons x l ih =>
    rw [List.cons_append, List.takeWhile_cons, if_pos (hk x (by simp))]
    rw [ih (fun c hc => hk c (by simp [hc])), List.cons_append]

theorem dropWhile_append_all {p : α → Bool} {k : List α}
    (hk : ∀ c ∈ k, p c = true) (rest : List α) :
    (k ++ rest).dropWhile p = rest.dropWhile p := by
  induction k with
  | nil => rfl
  | cons x l ih =>
    rw [List.cons_append, List.dropWhile_cons, if_pos (hk x (by simp))]
    exact ih (fun c hc => hk c (by simp [hc]))

/-! ### Parser invariants -/

theorem lineKV_inv {raw : Str} {kv : Str × Str}
    (h : lineKV raw = some kv) :
    ∃ s2 : Str, pyStrip s2 = s2 ∧ s2 ≠ [] ∧
      List.isPrefixOf ['#'] s2 = false ∧ hasEq s2 = true ∧
      splitEq s2 = kv := by
  simp only [lineKV] at h
  by_cases c1 : (pyStrip raw).isEmpty = true
  · rw [if_pos c1] at h; exact absurd h (by simp)
  rw [if_neg c1] at h
  by_cases c2 : List.isPrefixOf "##".data (pyStrip raw) = true
  · rw [if_pos c2] at h; exact absurd h (by simp)
  rw [if_neg c2] at h
  have hs2 : pyStrip (if List.isPrefixOf "#".data (pyStrip raw) = true then
      pyStrip (lstripHash (pyStrip raw)) else pyStrip raw) =
      (if List.isPrefixOf "#".data (pyStrip raw) = true then
        pyStrip (lstripHash (pyStrip raw)) else pyStrip raw) := by
    split
    · exact pyStrip_idem _
    · exact pyStrip_idem _
  generalize hgen : (if List.isPrefixOf "#".data (pyStrip raw) = true then
      pyStrip (lstripHash (pyStrip raw)) else pyStrip raw) = s2v at h hs2
  by_cases c3 : s2v.isEmpty = true
  · rw [if_pos c3] at h; exact absurd h (by simp)
  rw [if_neg c3] at h
  by_cases c4 : List.isPrefixOf "#".data s2v = true
  · rw [if_pos c4] at h; exact absurd h (by simp)
  rw [if_neg c4] at h
  by_cases c5 : hasEq s2v = true
  · rw [if_neg (by simp [c5])] at h
    injection h with h'
    refine ⟨s2v, hs2, ?_, ?_, c5, h'⟩
    · intro hemp
      rw [hemp] at c3
      exact c3 rfl
    · rw [Bool.not_eq_true] at c4
      exact c4
  · rw [if_pos (by simp [c5])] at h
    exact absurd h (by simp)

theorem splitEq_good {s2 : Str} (hs : pyStrip s2 = s2) (hne : s2 ≠ [])
    (hpre : List.isPrefixOf ['#'] s2 = false) :
    goodKV (splitEq s2) := by
  rcases s2 with _ | ⟨c, rest⟩
  · exact absurd rfl hne
  · have hcn : c ≠ '#' := by
      intro h
      rw [List.isPrefixOf] at hpre
      subst h
      simp at hpre
    have hcsp : isSpaceChar c = false :=
      pyLstrip_head (pyStrip_parts hs).1 (head_cons_eq c rest)
    unfold goodKV splitEq
    refine ⟨pyStrip_idem _, pyStrip_idem _, ?_, ?_⟩
    · intro hmem
      simp only at hmem
      have h1 := mem_pyStrip hmem
      have h2 := List.mem_takeWhile_imp h1
      simp at h2
    · simp only
      by_cases hce : c = '='
      · rw [List.takeWhile_cons, if_neg (by simp [hce])]
        simp [pyStrip, pyLstrip, pyRstrip]
      · rw [List.takeWhile_cons, if_pos (by simp [hce])]
        rw [show pyStrip (c :: rest.takeWhile (fun x => ¬ x = '=')) =
            c :: pyRstrip (rest.takeWhile (fun x => ¬ x = '=')) from by
          unfold pyStrip
          rw [pyLstrip_of_head (head_cons_eq c _) hcsp,
              pyRstrip_cons_of hcsp]]
        simp [hcn]

theorem lineKV_good {raw : Str} {kv : Str × Str}
    (h : lineKV raw = some kv) : goodKV kv := by
  obtain ⟨s2, hs, hne, hpre, _, hsp⟩ := lineKV_inv h
  rw [← hsp]
  exact splitEq_good hs hne hpre

theorem line_strip_self {k v : Str} (hk : pyStrip k = k)
    (hv : pyStrip v = v) : pyStrip (k ++ '=' :: v) = k ++ '=' :: v := by
  apply pyStrip_of_ends
  · intro c hc
    cases k with
    | nil =>
      rw [List.nil_append, head_cons_eq] at hc
      injection hc with hc'
      subst hc'
      rfl
    | cons a t =>
      rw [List.cons_append, head_cons_eq] at hc
      injection hc with hc'
      subst hc'
      exact pyLstrip_head (pyStrip_parts hk).1 (head_cons_eq a t)
  · intro c hc
    rw [List.getLast?_append] at hc
    cases v with
    | nil =>
      simp at hc
      subst hc
      rfl
    | cons b bs =>
      rw [List.getLast?_cons_cons] at hc
      have hbbs : (b :: bs).getLast? = some c := by
        rcases hg : (b :: bs).getLast? with _ | d
        · simp at hg
        · rw [hg] at hc
          simpa using hc
      exact pyRstrip_last (pyStrip_parts hv).2 hbbs

theorem line_head_ne_hash {k v : Str} {c : Char}
    (hkh : k.head? ≠ some '#') (hc : (k ++ '=' :: v).head? = some c) :
    c ≠ '#' := by
  cases k with
  | nil =>
    rw [List.nil_append, head_cons_eq] at hc
    injection hc with hc'
    subst hc'
    decide
  | cons a t =>
    rw [List.cons_append, head_cons_eq] at hc
    injection hc with hc'
    subst hc'
    intro hca
    exact hkh (by rw [head_cons_eq, hca])

theorem prefix_hash_false {line : Str} {c : Char} (hh : line.head? = some c)
    (hc : c ≠ '#') (rest : Str) :
    List.isPrefixOf ('#' :: rest) line = false := by
  cases line with
  | nil => simp at hh
  | cons a t =>
    rw [head_cons_eq] at hh
    injection hh with hh'
    rw [List.isPrefixOf]
    have hba : ('#' == a) = false := by
      rw [beq_eq_false_iff_ne]
      intro h
      have hca : c = '#' := by rw [← hh']; exact h.symm
      exact hc hca
    rw [hba, Bool.false_and]

theorem lineKV_serialize {k v : Str} (hg : goodKV (k, v)) :
    lineKV (k ++ '=' :: v) = some (k, v) := by
  obtain ⟨hk, hv, hkeq, hkh⟩ := hg
  simp only at hk hv hkeq hkh
  have hline := line_strip_self hk hv
  have hhead : ∃ c, (k ++ '=' :: v).head? = some c := by
    cases k with
    | nil => exact ⟨'=', rfl⟩
    | cons a t => exact ⟨a, rfl⟩
  obtain ⟨c, hc⟩ := hhead
  have hcne := line_head_ne_hash hkh hc
  have hpre1 : List.isPrefixOf "#".data (k ++ '=' :: v) = false :=
    prefix_hash_false hc hcne []
  have hpre2 : List.isPrefixOf "##".data (k ++ '=' :: v) = false :=
    prefix_hash_false hc hcne ['#']
  have hnonempty : (k ++ '=' :: v).isEmpty = false := by
    cases k <;> rfl
  have heq : hasEq (k ++ '=' :: v) = true := by
    unfold hasEq
    rw [List.any_eq_true]
    exact ⟨'=', List.mem_append.mpr (Or.inr (by simp)), by simp⟩
  have hkeep : ∀ c ∈ k, (decide (¬ c = '=')) = true := by
    intro x hx
    by_cases hxe : x = '='
    · exact absurd (hxe ▸ hx) hkeq
    · simp [hxe]
  have hsplit : splitEq (k ++ '=' :: v) = (k, v) := by
    unfold splitEq
    rw [takeWhile_append_all hkeep, dropWhile_append_all hkeep]
    rw [List.takeWhile_cons, if_neg (by simp), List.append_nil]
    rw [List.dropWhile_cons, if_neg (by simp)]
    rw [List.drop_one, List.tail_cons]
    rw [hk, hv]
  simp only [lineKV]
  rw [hline]
  simp [hnonempty, hpre1, hpre2, heq, hsplit]

/-! ### Override-map accumulation lemmas -/

theorem mem_keys_dictInsert_self (m : List (Str × Str)) (k v : Str) :
    k ∈ keysOf (dictInsert m k v) := by
  unfold dictInsert keysOf
  by_cases hany : (m.any fun p => decide (p.1 = k)) = true
  · rw [if_pos hany]
    obtain ⟨p, hp, hpk⟩ := List.any_eq_true.mp hany
    simp only [decide_eq_true_eq] at hpk
    refine List.mem_map.mpr ⟨(k, v), List.mem_map.mpr ⟨p, hp, ?_⟩, rfl⟩
    rw [if_pos hpk]
  · rw [if_neg hany]
    simp

theorem mem_keys_dictInsert_mono {k' : Str} {m : List (Str × Str)}
    (k v : Str) (h : k' ∈ keysOf m) : k' ∈ keysOf (dictInsert m k v) := by
  unfold keysOf at h
  obtain ⟨p, hp, hpk⟩ := List.mem_map.mp h
  unfold dictInsert keysOf
  by_cases hany : (m.any fun p => decide (p.1 = k)) = true
  · rw [if_pos hany]
    by_cases hpk2 : p.1 = k
    · refine List.mem_map.mpr
        ⟨(k, v), List.mem_map.mpr ⟨p, hp, by rw [if_pos hpk2]⟩, ?_⟩
      show k = k'
      rw [← hpk2, hpk]
    · exact List.mem_map.mpr
        ⟨p, List.mem_map.mpr ⟨p, hp, by rw [if_neg hpk2]⟩, hpk⟩
  · rw [if_neg hany, List.map_append]
    exact List.mem_append.mpr (Or.inl (List.mem_map.mpr ⟨p, hp, hpk⟩))

theorem dictInsert_good {m : List (Str × Str)} {k v : Str}
    (hm : ∀ p ∈ m, goodKV p) (hkv : goodKV (k, v)) :
    ∀ p ∈ dictInsert m k v, goodKV p := by
  intro p hp
  unfold dictInsert at hp
  by_cases hany : (m.any fun p => decide (p.1 = k)) = true
  · rw [if_pos hany] at hp
    obtain ⟨q, hq, hqe⟩ := List.mem_map.mp hp
    by_cases hqk : q.1 = k
    · rw [if_pos hqk] at hqe
      rw [← hqe]
      exact hkv
    · rw [if_neg hqk] at hqe
      rw [← hqe]
      exact hm q hq
  · rw [if_neg hany] at hp
    rcases List.mem_append.mp hp with h | h
    · exact hm p h
    · rw [List.mem_singleton] at h
      rw [h]
      exact hkv

theorem keysOf_dictInsert_update {m : List (Str × Str)} {k v : Str}
    (hany : (m.any fun p => decide (p.1 = k)) = true) :
    keysOf (dictInsert m k v) = keysOf m := by
  unfold dictInsert keysOf
  rw [if_pos hany, List.map_map]
  apply List.map_congr_left
  intro p hp
  simp only [Function.comp_apply]
  by_cases hpk : p.1 = k
  · rw [if_pos hpk]
    exact hpk.symm
  · rw [if_neg hpk]

theorem keysOf_dictInsert_append {m : List (Str × Str)} {k v : Str}
    (hany : (m.any fun p => decide (p.1 = k)) = false) :
    keysOf (dictInsert m k v) = keysOf m ++ [k] := by
  unfold dictInsert keysOf
  rw [if_neg (by simp [hany]), List.map_append]
  rfl

theorem not_mem_keys_of_any_false {m : List (Str × Str)} {k : Str}
    (hany : (m.any fun p => decide (p.1 = k)) = false) :
    k ∉ keysOf m := by
  intro hk
  obtain ⟨p, hp, hpk⟩ := List.mem_map.mp hk
  have := List.any_eq_false.mp hany p hp
  simp [hpk] at this

theorem nodup_keysOf_dictInsert {m : List (Str × Str)} {k v : Str}
    (h : (keysOf m).Nodup) : (keysOf (dictInsert m k v)).Nodup := by
  by_cases hany : (m.any fun p => decide (p.1 = k)) = true
  · rw [keysOf_dictInsert_update hany]
    exact h
  · have hanyf : (m.any fun p => decide (p.1 = k)) = false :=
      Bool.eq_false_iff.mpr hany
    rw [keysOf_dictInsert_append hanyf]
    rw [List.nodup_append]
    refine ⟨h, List.nodup_singleton k, ?_⟩
    intro a ha hb
    rw [List.mem_singleton] at hb
    subst hb
    exact not_mem_keys_of_any_false hanyf ha

theorem processLines_eq_foldl (lines : List Str) :
    processLines lines = List.foldl pstep [] lines := rfl

theorem foldl_pstep_good (L : List Str) :
    ∀ acc, (∀ p ∈ acc, goodKV p) →
      ∀ p ∈ List.foldl pstep acc L, goodKV p := by
  induction L with
  | nil => intro acc hacc p hp; exact hacc p hp
  | cons l ls ih =>
    intro acc hacc p hp
    rw [List.foldl_cons] at hp
    refine ih (pstep acc l) ?_ p hp
    intro q hq
    unfold pstep at hq
    cases hkv : lineKV l with
    | none => rw [hkv] at hq; exact hacc q hq
    | some kv =>
      rw [hkv] at hq
      rcases kv with ⟨k0, v0⟩
      exact dictInsert_good hacc (lineKV_good hkv) q hq

theorem foldl_pstep_nodup (L : List Str) :
    ∀ acc, (keysOf acc).Nodup →
      (keysOf (List.foldl pstep acc L)).Nodup := by
  induction L with
  | nil => intro acc hacc; exact hacc
  | cons l ls ih =>
    intro acc hacc
    rw [List.foldl_cons]
    refine ih (pstep acc l) ?_
    unfold pstep
    cases hkv : lineKV l with
    | none => exact hacc
    | some kv => exact nodup_keysOf_dictInsert hacc

theorem foldl_pstep_keys_mono (L : List Str) :
    ∀ acc (k : Str), k ∈ keysOf acc →
      k ∈ keysOf (List.foldl pstep acc L) := by
  induction L with
  | nil => intro acc k hk; exact hk
  | cons l ls ih =>
    intro acc k hk
    rw [List.foldl_cons]
    refine ih (pstep acc l) k ?_
    unfold pstep
    cases hkv : lineKV l with
    | none => exact hk
    | some kv => exact mem_keys_dictInsert_mono kv.1 kv.2 hk

theorem foldl_pstep_keys_of_line (L : List Str) :
    ∀ acc (k v : Str), (∃ l ∈ L, lineKV l = some (k, v)) →
      k ∈ keysOf (List.foldl pstep acc L) := by
  induction L with
  | nil => intro acc k v h; simp at h
  | cons l ls ih =>
    intro acc k v h
    obtain ⟨l0, hl0, hkv⟩ := h
    rw [List.foldl_cons]
    rcases List.mem_cons.mp hl0 with heq | hmem
    · have hk : k ∈ keysOf (pstep acc l) := by
        unfold pstep
        rw [← heq, hkv]
        exact mem_keys_dictInsert_self acc k v
      exact foldl_pstep_keys_mono ls (pstep acc l) k hk
    · exact ih (pstep acc l) k v ⟨l0, hmem, hkv⟩

theorem foldl_pstep_serialize :
    ∀ (m acc : List (Str × Str)), (∀ p ∈ m, goodKV p) →
      (keysOf m).Nodup → (∀ p ∈ m, p.1 ∉ keysOf acc) →
      List.foldl pstep acc (serializeLines m) = acc ++ m := by
  intro m
  induction m with
  | nil => intro acc _ _ _; simp [serializeLines]
  | cons p m' ih =>
    intro acc hg hnd hdisj
    rcases p with ⟨k, v⟩
    rw [show serializeLines ((k, v) :: m') =
        (k ++ '=' :: v) :: serializeLines m' from rfl, List.foldl_cons]
    have hline : lineKV (k ++ '=' :: v) = some (k, v) :=
      lineKV_serialize (hg (k, v) (List.mem_cons_self _ _))
    have hstep : pstep acc (k ++ '=' :: v) = acc ++ [(k, v)] := by
      unfold pstep
      rw [hline]
      show dictInsert acc k v = acc ++ [(k, v)]
      have hne : ¬((acc.any fun p => decide (p.1 = k)) = true) := by
        intro hany
        obtain ⟨q, hq, hqk⟩ := List.any_eq_true.mp hany
        simp only [decide_eq_true_eq] at hqk
        exact hdisj (k, v) (List.mem_cons_self _ _)
          (List.mem_map.mpr ⟨q, hq, hqk⟩)
      unfold dictInsert
      rw [if_neg hne]
    rw [hstep]
    have hknotin : k ∉ keysOf m' := by
      have : (keysOf ((k, v) :: m')).Nodup := hnd
      rw [show keysOf ((k, v) :: m') = k :: keysOf m' from rfl] at this
      exact (List.nodup_cons.mp this).1
    rw [ih (acc ++ [(k, v)]) (fun q hq => hg q (List.mem_cons_of_mem _ hq))
        (by
          have : (keysOf ((k, v) :: m')).Nodup := hnd
          rw [show keysOf ((k, v) :: m') = k :: keysOf m' from rfl] at this
          exact (List.nodup_cons.mp this).2)
        (by
          intro q hq hqin
          unfold keysOf at hqin
          rw [List.map_append, List.mem_append] at hqin
          rcases hqin with h1 | h1
          · exact hdisj q (List.mem_cons_of_mem _ hq) h1
          · simp at h1
            exact hknotin (h1 ▸ List.mem_map.mpr ⟨q, hq, rfl⟩))]
    simp

theorem serialize_no_marker {m : List (Str × Str)}
    (hg : ∀ p ∈ m, goodKV p) :
    ∀ l ∈ serializeLines m, isMarker l = false := by
  intro l hl
  obtain ⟨p, hp, hpe⟩ := List.mem_map.mp hl
  rcases p with ⟨k, v⟩
  obtain ⟨hk, hv, _, hkh⟩ := hg (k, v) hp
  simp only at hk hv hkh hpe
  rw [← hpe]
  unfold isMarker
  rw [line_strip_self hk hv]
  have hhead : ∃ c, (k ++ '=' :: v).head? = some c := by
    cases k with
    | nil => exact ⟨'=', rfl⟩
    | cons a t => exact ⟨a, rfl⟩
  obtain ⟨c, hc⟩ := hhead
  rw [prefix_hash_false hc (line_head_ne_hash hkh hc) ['#'], Bool.false_and]

/-! ### Marker-position lemmas -/

theorem findIdx_marker_aux (pre : List Str) (mrk : Str) (post : List Str)
    (hpre : ∀ l ∈ pre, isMarker l = false) (hmk : isMarker mrk = true) :
    ∀ i, List.findIdx? isMarker (pre ++ mrk :: post) i =
      some (i + pre.length) := by
  induction pre with
  | nil => intro i; simp [List.findIdx?_cons, hmk]
  | cons x xs ih =>
    intro i
    rw [List.cons_append, List.findIdx?_cons,
        if_neg (by simp [hpre x (List.mem_cons_self _ _)])]
    rw [ih (fun l hl => hpre l (List.mem_cons_of_mem _ hl)) (i + 1)]
    congr 1
    rw [List.length_cons]
    omega

theorem findIdx_none_of (lines : List Str)
    (h : ∀ l ∈ lines, isMarker l = false) :
    ∀ i, List.findIdx? isMarker lines i = none := by
  induction lines with
  | nil => intro i; rfl
  | cons x xs ih =>
    intro i
    rw [List.findIdx?_cons, if_neg (by simp [h x (List.mem_cons_self _ _)])]
    exact ih (fun l hl => h l (List.mem_cons_of_mem _ hl)) (i + 1)

theorem startIdx_marker (pre : List Str) (mrk : Str) (post : List Str)
    (hpre : ∀ l ∈ pre, isMarker l = false) (hmk : isMarker mrk = true) :
    startIdx (pre ++ mrk :: post) = pre.length + 1 := by
  unfold startIdx
  rw [findIdx_marker_aux pre mrk post hpre hmk 0]
  simp

theorem startIdx_nomarker (lines : List Str)
    (h : ∀ l ∈ lines, isMarker l = false) : startIdx lines = 0 := by
  unfold startIdx
  rw [findIdx_none_of lines h 0]

theorem drop_pre_marker (pre : List Str) (mrk : Str) (post : List Str) :
    (pre ++ mrk :: post).drop (pre.length + 1) = post := by
  have h1 : pre ++ mrk :: post = (pre ++ [mrk]) ++ post := by simp
  have h2 : pre.length + 1 = (pre ++ [mrk]).length := by simp
  rw [h1, h2, List.drop_left]

/-! ### Claim C6 -/

/-- C6 confirmed: key/value pairs on lines before the first section-marker
line are excluded (parsing restarts right after the marker), pairs on
lines after it are included, and with no marker line the whole text is
parsed from line 0. -/
theorem claim_C6 :
    (∀ (pre : List Str) (mrk : Str) (post : List Str),
      (∀ l ∈ pre, isMarker l = false) → isMarker mrk = true →
      parseOverridesLines (pre ++ mrk :: post) = processLines post) ∧
    (∀ lines : List Str, (∀ l ∈ lines, isMarker l = false) →
      parseOverridesLines lines = processLines lines) ∧
    (∀ (pre : List Str) (mrk : Str) (post : List Str) (k v : Str),
      (∀ l ∈ pre, isMarker l = false) → isMarker mrk = true →
      (∃ l ∈ post, lineKV l = some (k, v)) →
      ∃ v2, (k, v2) ∈ parseOverridesLines (pre ++ mrk :: post)) := by
  have hmain : ∀ (pre : List Str) (mrk : Str) (post : List Str),
      (∀ l ∈ pre, isMarker l = false) → isMarker mrk = true →
      parseOverridesLines (pre ++ mrk :: post) = processLines post := by
    intro pre mrk post hpre hmk
    unfold parseOverridesLines
    rw [startIdx_marker pre mrk post hpre hmk, drop_pre_marker]
  refine ⟨hmain, ?_, ?_⟩
  · intro lines h
    unfold parseOverridesLines
    rw [startIdx_nomarker lines h, List.drop_zero]
  · intro pre mrk post k v hpre hmk hex
    rw [hmain pre mrk post hpre hmk]
    have hk : k ∈ keysOf (processLines post) := by
      rw [processLines_eq_foldl]
      exact foldl_pstep_keys_of_line post [] k v hex
    obtain ⟨p, hp, hpk⟩ := List.mem_map.mp hk
    rcases p with ⟨k0, v0⟩
    simp only at hpk
    subst hpk
    exact ⟨v0, hp⟩

/-- Witness for C6 at concrete inputs. -/
theorem claim_C6_witness :
    ((∀ l ∈ ["a=1".data], isMarker l = false) ∧
     isMarker "## ---- section ----".data = true ∧
     parseOverridesLines
        (["a=1".data] ++ "## ---- section ----".data :: ["y=2".data]) =
       processLines ["y=2".data]) ∧
    ((∀ l ∈ ["a=b".data], isMarker l = false) ∧
     parseOverridesLines ["a=b".data] = processLines ["a=b".data]) ∧
    ∃ v2, ("y".data, v2) ∈ parseOverridesLines
        (["a=1".data] ++ "## ---- section ----".data :: ["y=2".data]) := by
  refine ⟨⟨by decide, by decide, claim_C6.1 _ _ _ (by decide) (by decide)⟩,
    ⟨by decide, claim_C6.2.1 _ (by decide)⟩,
    claim_C6.2.2 ["a=1".data] "## ---- section ----".data ["y=2".data]
      "y".data "2".data (by decide) (by decide)
      ⟨"y=2".data, by simp, by decide⟩⟩

/-! ### Claim C8 -/

theorem parse_serialize_eq (m : List (Str × Str))
    (hg : ∀ p ∈ m, goodKV p) (hnd : (keysOf m).Nodup) :
    parseOverridesLines (serializeLines m) = m := by
  unfold parseOverridesLines
  rw [startIdx_nomarker _ (serialize_no_marker hg), List.drop_zero,
      processLines_eq_foldl,
      foldl_pstep_serialize m [] hg hnd (by simp [keysOf])]
  simp

/-- C8 confirmed: override parsing is idempotent under re-serialization —
re-serializing the parsed map as `key=value` lines and parsing those lines
again yields the same mapping. -/
theorem claim_C8 (lines : List Str) :
    parseOverridesLines (serializeLines (parseOverridesLines lines)) =
      parseOverridesLines lines := by
  apply parse_serialize_eq
  · intro p hp
    unfold parseOverridesLines at hp
    rw [processLines_eq_foldl] at hp
    exact foldl_pstep_good _ [] (by simp) p hp
  · unfold parseOverridesLines
    rw [processLines_eq_foldl]
    exact foldl_pstep_nodup _ [] (by simp [keysOf])

/-! ### The archive-free traversal (claim C3) -/

theorem isDir_iff_mem {fs : FS} {p : FPath} :
    fs.isDir p = true ↔ p ∈ fs.dirs := by
  simp [FS.isDir]

theorem isFile_mem_keys {fs : FS} {p : FPath} (h : fs.isFile p = true) :
    p ∈ fs.files.map Prod.fst := by
  unfold FS.isFile at h
  rw [Option.isSome_iff_exists] at h
  obtain ⟨fr, hfr⟩ := h
  exact List.mem_map.mpr ⟨(p, fr), FS.getFile_mem hfr, rfl⟩

theorem isFile_of_mem_keys {fs : FS} {p : FPath}
    (h : p ∈ fs.files.map Prod.fst) : fs.isFile p = true := by
  unfold FS.isFile FS.getFile
  obtain ⟨q, hq, hqe⟩ := List.mem_map.mp h
  rw [Option.isSome_iff_exists]
  have hfind : (fs.files.find? (fun r => decide (r.1 = p))).isSome = true := by
    rw [List.find?_isSome]
    exact ⟨q, hq, by simp [hqe]⟩
  rw [Option.isSome_iff_exists] at hfind
  obtain ⟨r, hr⟩ := hfind
  exact ⟨r.2, by rw [hr]; rfl⟩

theorem wf_not_dir_of_file {fs : FS} (hwf : fs.wf) {p : FPath}
    (h : fs.isFile p = true) : fs.isDir p = false := by
  cases hd : fs.isDir p
  · rfl
  · exact absurd (isFile_mem_keys h)
      (hwf.2.2 p (isDir_iff_mem.mp hd))

theorem mem_childPaths {fs : FS} {d p : FPath} :
    p ∈ fs.childPaths d ↔
      (p ∈ fs.dirs ∨ p ∈ fs.files.map Prod.fst) ∧ isChildOf d p = true := by
  unfold FS.childPaths
  rw [List.mem_dedup, List.mem_filter, List.mem_append]

theorem processEntries_noArch {fs : FS} (hna : noArchives fs) :
    ∀ entries, processEntries fs entries =
      .ok (fs, entries.filter (fun p => fs.isDir p),
           entries.filter (fun p => !fs.isDir p && fs.isFile p)) := by
  intro entries
  induction entries with
  | nil => simp [processEntries]
  | cons p ps ih =>
    by_cases hd : fs.isDir p = true
    · simp [processEntries, hd, ih, Except.map, List.filter_cons]
    · cases hg : fs.getFile p with
      | none =>
        have hf : fs.isFile p = false := by simp [FS.isFile, hg]
        simp [processEntries, hd, hg, ih, List.filter_cons, hf]
      | some fr =>
        have hz : fr.sigZip = false := hna (p, fr) (FS.getFile_mem hg)
        have hf : fs.isFile p = true := by simp [FS.isFile, hg]
        simp [processEntries, hd, hg, hz, ih, Except.map, List.filter_cons,
          hf]

theorem reachQ_nil {fs : FS} {seen : List FPath} (d : FPath) :
    ¬ ReachQ fs [] seen d := by
  intro h
  induction h with
  | base hq _ _ => simp at hq
  | step _ _ _ _ ih => exact ih

theorem reachQ_skip {fs : FS} {cur : FPath} {rest seen : List FPath}
    (hcur : cur ∈ seen ∨ fs.isDir cur = false) :
    ∀ d, ReachQ fs (cur :: rest) seen d ↔ ReachQ fs rest seen d := by
  intro d
  constructor
  · intro h
    induction h with
    | base hq hs hd =>
      rcases List.mem_cons.mp hq with heq | hq'
      · exfalso
        subst heq
        rcases hcur with h1 | h1
        · exact hs h1
        · rw [hd] at h1; exact absurd h1 (by simp)
      · exact ReachQ.base hq' hs hd
    | step _ hc hs hd ih => exact ReachQ.step ih hc hs hd
  · intro h
    induction h with
    | base hq hs hd => exact ReachQ.base (List.mem_cons_of_mem _ hq) hs hd
    | step _ hc hs hd ih => exact ReachQ.step ih hc hs hd

theorem reachQ_file {fs : FS} {cur : FPath} {rest seen : List FPath}
    (hcur : fs.isDir cur = false) :
    ∀ d, ReachQ fs (cur :: rest) seen d ↔
      ReachQ fs rest (cur :: seen) d := by
  intro d
  constructor
  · intro h
    induction h with
    | base hq hs hd =>
      rcases List.mem_cons.mp hq with heq | hq'
      · exfalso; subst heq; rw [hd] at hcur; exact absurd hcur (by simp)
      · refine ReachQ.base hq' ?_ hd
        intro hmem
        rcases List.mem_cons.mp hmem with heq | hmem'
        · subst heq; rw [hd] at hcur; exact absurd hcur (by simp)
        · exact hs hmem'
    | step _ hc hs hd ih =>
      refine ReachQ.step ih hc ?_ hd
      intro hmem
      rcases List.mem_cons.mp hmem with heq | hmem'
      · subst heq; rw [hd] at hcur; exact absurd hcur (by simp)
      · exact hs hmem'
  · intro h
    induction h with
    | base hq hs hd =>
      exact ReachQ.base (List.mem_cons_of_mem _ hq)
        (fun hm => hs (List.mem_cons_of_mem _ hm)) hd
    | step _ hc hs hd ih =>
      exact ReachQ.step ih hc (fun hm => hs (List.mem_cons_of_mem _ hm)) hd

theorem reachQ_dir {fs : FS} {cur : FPath} {rest seen newQ : List FPath}
    (hdir : fs.isDir cur = true) (hns : cur ∉ seen)
    (hnewQ : ∀ c, c ∈ newQ ↔ (isChildOf cur c = true ∧ fs.isDir c = true)) :
    ∀ d, ReachQ fs (cur :: rest) seen d ↔
      (d = cur ∨ ReachQ fs (rest ++ newQ) (cur :: seen) d) := by
  intro d
  constructor
  · intro h
    induction h with
    | base hq hs hd =>
      rename_i d0
      by_cases hdc : d0 = cur
      · exact Or.inl hdc
      · rcases List.mem_cons.mp hq with heq | hq'
        · exact absurd heq hdc
        · refine Or.inr (ReachQ.base (List.mem_append.mpr (Or.inl hq')) ?_
            hd)
          intro hm
          rcases List.mem_cons.mp hm with heq | hm'
          · exact hdc heq
          · exact hs hm'
    | step _ hc hs hd ih =>
      rename_i d0 c0 _
      by_cases hcc : c0 = cur
      · exact Or.inl hcc
      · rcases ih with hd0 | hr
        · subst hd0
          refine Or.inr (ReachQ.base
            (List.mem_append.mpr (Or.inr ((hnewQ c0).mpr ⟨hc, hd⟩))) ?_ hd)
          intro hm
          rcases List.mem_cons.mp hm with heq | hm'
          · exact hcc heq
          · exact hs hm'
        · refine Or.inr (ReachQ.step hr hc ?_ hd)
          intro hm
          rcases List.mem_cons.mp hm with heq | hm'
          · exact hcc heq
          · exact hs hm'
  · intro h
    rcases h with rfl | hr
    · exact ReachQ.base (List.mem_cons_self _ _) hns hdir
    · induction hr with
      | base hq hs hd =>
        rename_i d0
        have hs' : d0 ∉ seen := fun hm => hs (List.mem_cons_of_mem _ hm)
        rcases List.mem_append.mp hq with hq' | hq'
        · exact ReachQ.base (List.mem_cons_of_mem _ hq') hs' hd
        · obtain ⟨hch, _⟩ := (hnewQ d0).mp hq'
          exact ReachQ.step (ReachQ.base (List.mem_cons_self _ _) hns hdir)
            hch hs' hd
      | step _ hc hs hd ih =>
        exact ReachQ.step ih hc (fun hm => hs (List.mem_cons_of_mem _ hm)) hd

theorem sum_filter_seen {L : List FPath} (f : FPath → Nat) :
    ∀ {seen : List FPath} {cur : FPath}, L.Nodup → cur ∈ L → cur ∉ seen →
      ((L.filter (fun d => decide (d ∉ seen))).map f).sum =
        f cur +
          ((L.filter (fun d => decide (d ∉ cur :: seen))).map f).sum := by
  induction L with
  | nil => intro seen cur _ hc; simp at hc
  | cons x xs ih =>
    intro seen cur hnd hc hns
    by_cases hxc : x = cur
    · subst hxc
      have hxs : x ∉ xs := (List.nodup_cons.mp hnd).1
      rw [List.filter_cons, List.filter_cons]
      rw [if_pos (by simpa using hns), if_neg (by simp)]
      rw [List.map_cons, List.sum_cons]
      have hcong : xs.filter (fun d => decide (d ∉ x :: seen)) =
          xs.filter (fun d => decide (d ∉ seen)) := by
        apply List.filter_congr
        intro d hd
        have hdx : d ≠ x := fun he => hxs (he ▸ hd)
        simp [List.mem_cons, hdx]
      rw [hcong]
    · have hmem : cur ∈ xs := by
        rcases List.mem_cons.mp hc with heq | hm
        · exact absurd heq.symm hxc
        · exact hm
      have hcond : (decide (x ∉ cur :: seen)) = (decide (x ∉ seen)) := by
        simp [List.mem_cons, hxc]
      rw [List.filter_cons, List.filter_cons, hcond]
      by_cases hb : (decide (x ∉ seen)) = true
      · rw [if_pos hb, if_pos hb, List.map_cons, List.sum_cons,
            List.map_cons, List.sum_cons,
            ih (List.nodup_cons.mp hnd).2 hmem hns]
        omega
      · rw [if_neg hb, if_neg hb]
        exact ih (List.nodup_cons.mp hnd).2 hmem hns

theorem collectAux_noArch {fs : FS} (hna : noArchives fs) (hwf : fs.wf) :
    ∀ (fuel : Nat) (queue seen acc vis : List FPath),
      queue.length +
        ((fs.dirs.filter (fun d => decide (d ∉ seen))).map
          (fun d => 1 + (fs.childPaths d).length)).sum + 1 ≤ fuel →
      vis.Nodup → (∀ x ∈ vis, x ∈ seen) →
      ∃ acc2 vis2,
        collectAux fuel fs queue seen acc vis = .ok (fs, acc2, vis2) ∧
        vis2.Nodup ∧
        (∀ p, p ∈ acc2 ↔ p ∈ acc ∨ (fs.isFile p = true ∧
          ∃ d, ReachQ fs queue seen d ∧ isChildOf d p = true)) := by
  intro fuel
  induction fuel with
  | zero => intro queue seen acc vis hf; omega
  | succ n ih =>
    intro queue seen acc vis hf hvn hvs
    cases queue with
    | nil =>
      refine ⟨acc, vis, rfl, hvn, ?_⟩
      intro p
      constructor
      · exact Or.inl
      · rintro (hp | ⟨_, d, hrd, _⟩)
        · exact hp
        · exact absurd hrd (reachQ_nil d)
    | cons cur rest =>
      rw [List.length_cons] at hf
      by_cases hskip : cur ∈ seen ∨ ¬ fs.present cur = true
      · have hred : collectAux (n + 1) fs (cur :: rest) seen acc vis =
            collectAux n fs rest seen acc vis := by
          simp only [collectAux]
          rw [if_pos hskip]
        obtain ⟨acc2, vis2, hres, hnd2, hiff⟩ :=
          ih rest seen acc vis (by omega) hvn hvs
        have hcur' : cur ∈ seen ∨ fs.isDir cur = false := by
          rcases hskip with h1 | h1
          · exact Or.inl h1
          · refine Or.inr ?_
            cases hd : fs.isDir cur
            · rfl
            · exact absurd (by simp [FS.present, hd]) h1
        refine ⟨acc2, vis2, by rw [hred]; exact hres, hnd2, ?_⟩
        intro p
        rw [hiff p]
        simp only [reachQ_skip hcur']
      · have hpres : fs.present cur = true := by
          cases h : fs.present cur
          · exact absurd (Or.inr (by simp [h] : ¬ fs.present cur = true))
              hskip
          · rfl
        have hnseen : cur ∉ seen := fun hm => hskip (Or.inl hm)
        by_cases hfile : fs.isFile cur = true
        · have hcnd : fs.isDir cur = false := wf_not_dir_of_file hwf hfile
          have hred : collectAux (n + 1) fs (cur :: rest) seen acc vis =
              collectAux n fs rest (cur :: seen) acc vis := by
            simp only [collectAux]
            rw [if_neg hskip, if_pos hfile]
          have hfilter : fs.dirs.filter (fun d => decide (d ∉ cur :: seen)) =
              fs.dirs.filter (fun d => decide (d ∉ seen)) := by
            apply List.filter_congr
            intro d hd
            have hdc : d ≠ cur := by
              intro he
              exact (hwf.2.2 d hd) (he ▸ isFile_mem_keys hfile)
            simp [List.mem_cons, hdc]
          obtain ⟨acc2, vis2, hres, hnd2, hiff⟩ :=
            ih rest (cur :: seen) acc vis (by rw [hfilter]; omega) hvn
              (fun x hx => List.mem_cons_of_mem _ (hvs x hx))
          refine ⟨acc2, vis2, by rw [hred]; exact hres, hnd2, ?_⟩
          intro p
          rw [hiff p]
          simp only [reachQ_file hcnd]
        · have hdir : fs.isDir cur = true := by
            cases h : fs.isDir cur
            · have hff : fs.isFile cur = false := by
                cases hf2 : fs.isFile cur
                · rfl
                · exact absurd hf2 hfile
              exact absurd hpres (by simp [FS.present, h, hff])
            · rfl
          have hproc := processEntries_noArch hna (fs.childPaths cur)
          have hred : collectAux (n + 1) fs (cur :: rest) seen acc vis =
              collectAux n fs
                (rest ++ (fs.childPaths cur).filter (fun p => fs.isDir p))
                (cur :: seen)
                (acc ++ (fs.childPaths cur).filter
                  (fun p => !fs.isDir p && fs.isFile p))
                (vis ++ [cur]) := by
            simp only [collectAux]
            rw [if_neg hskip, if_neg (by simp [hfile]), hproc]
          have hsum := sum_filter_seen
            (fun d => 1 + (fs.childPaths d).length) hwf.1
            (isDir_iff_mem.mp hdir) hnseen
          have hlenQ : ((fs.childPaths cur).filter
              (fun p => fs.isDir p)).length ≤ (fs.childPaths cur).length :=
            List.length_filter_le _ _
          have hvn' : (vis ++ [cur]).Nodup := by
            rw [List.nodup_append]
            refine ⟨hvn, List.nodup_singleton _, ?_⟩
            intro a ha hb
            rw [List.mem_singleton] at hb
            subst hb
            exact hnseen (hvs a ha)
          have hvs' : ∀ x ∈ vis ++ [cur], x ∈ cur :: seen := by
            intro x hx
            rcases List.mem_append.mp hx with h1 | h1
            · exact List.mem_cons_of_mem _ (hvs x h1)
            · rw [List.mem_singleton] at h1
              subst h1
              exact List.mem_cons_self _ _
          obtain ⟨acc2, vis2, hres, hnd2, hiff⟩ :=
            ih (rest ++ (fs.childPaths cur).filter (fun p => fs.isDir p))
              (cur :: seen)
              (acc ++ (fs.childPaths cur).filter
                (fun p => !fs.isDir p && fs.isFile p))
              (vis ++ [cur])
              (by
                rw [List.length_append]
                have hsum2 : ((fs.dirs.filter
                    (fun d => decide (d ∉ seen))).map
                    (fun d => 1 + (fs.childPaths d).length)).sum =
                    1 + (fs.childPaths cur).length +
                    ((fs.dirs.filter (fun d => decide (d ∉ cur :: seen))).map
                      (fun d => 1 + (fs.childPaths d).length)).sum := by
                  rw [hsum]
                omega) hvn' hvs'
          have hnewQ : ∀ c, c ∈ (fs.childPaths cur).filter
              (fun p => fs.isDir p) ↔
              (isChildOf cur c = true ∧ fs.isDir c = true) := by
            intro c
            rw [List.mem_filter, mem_childPaths]
            constructor
            · rintro ⟨⟨_, hch⟩, hd⟩
              exact ⟨hch, hd⟩
            · rintro ⟨hch, hd⟩
              exact ⟨⟨Or.inl (isDir_iff_mem.mp hd), hch⟩, hd⟩
          have hnewA : ∀ p, p ∈ (fs.childPaths cur).filter
              (fun p => !fs.isDir p && fs.isFile p) ↔
              (fs.isFile p = true ∧ isChildOf cur p = true) := by
            intro p
            rw [List.mem_filter, mem_childPaths]
            constructor
            · rintro ⟨⟨_, hch⟩, hb⟩
              simp at hb
              exact ⟨hb.2, hch⟩
            · rintro ⟨hfp, hch⟩
              refine ⟨⟨Or.inr (isFile_mem_keys hfp), hch⟩, ?_⟩
              simp [hfp, wf_not_dir_of_file hwf hfp]
          refine ⟨acc2, vis2, by rw [hred]; exact hres, hnd2, ?_⟩
          intro p
          rw [hiff p]
          rw [List.mem_append, hnewA p]
          simp only [reachQ_dir hdir hnseen hnewQ]
          constructor
          · rintro ((h1 | ⟨h1, h2⟩) | ⟨h1, d, h2, h3⟩)
            · exact Or.inl h1
            · exact Or.inr ⟨h1, cur, Or.inl rfl, h2⟩
            · exact Or.inr ⟨h1, d, Or.inr h2, h3⟩
          · rintro (h1 | ⟨h1, d, (rfl | h2), h3⟩)
            · exact Or.inl (Or.inl h1)
            · exact Or.inl (Or.inr ⟨h1, h3⟩)
            · exact Or.inr ⟨h1, d, h2, h3⟩

theorem reachQ_root_iff (fs : FS) (root : FPath) :
    ∀ d, ReachQ fs [root] [] d ↔ Reach fs root d := by
  intro d
  constructor
  · intro h
    induction h with
    | base hq _ hd =>
      have heq := List.mem_singleton.mp hq
      rw [heq] at hd ⊢
      exact Reach.base hd
    | step _ hc _ hd ih => exact Reach.step ih hc hd
  · intro h
    induction h with
    | base hd => exact ReachQ.base (List.mem_singleton_self _) (by simp) hd
    | step _ hc hd ih => exact ReachQ.step ih hc (by simp) hd

theorem reach_none {fs : FS} {root : FPath} (h : fs.isDir root = false) :
    ∀ d, ¬ Reach fs root d := by
  intro d hr
  induction hr with
  | base hd => rw [hd] at h; exact absurd h (by simp)
  | step _ _ _ ih => exact ih

theorem collect_noArch (fs : FS) (root : FPath) (hna : noArchives fs)
    (hwf : fs.wf) :
    ∃ cands vis,
      collect_candidates (sufFuel fs) fs root = .ok (fs, cands, vis) ∧
      vis.Nodup ∧
      (∀ p, p ∈ cands ↔ fs.isFile p = true ∧
        ∃ d, Reach fs root d ∧ isChildOf d p = true) := by
  by_cases hpr : fs.present root = true
  · have hfilter : fs.dirs.filter (fun d => decide (d ∉ ([] : List FPath)))
        = fs.dirs :=
      List.filter_eq_self.mpr (fun a _ => by simp)
    have hfuel : ([root] : List FPath).length +
        ((fs.dirs.filter (fun d => decide (d ∉ ([] : List FPath)))).map
          (fun d => 1 + (fs.childPaths d).length)).sum + 1 ≤ sufFuel fs := by
      rw [hfilter]
      unfold sufFuel
      simp
      omega
    obtain ⟨acc2, vis2, hres, hnd, hiff⟩ :=
      collectAux_noArch hna hwf (sufFuel fs) [root] [] [] [] hfuel
        (by simp) (by simp)
    refine ⟨acc2, vis2, ?_, hnd, ?_⟩
    · unfold collect_candidates
      rw [if_neg (by simp [hpr])]
      exact hres
    · intro p
      rw [hiff p]
      simp only [List.not_mem_nil, false_or]
      simp only [reachQ_root_iff]
  · refine ⟨[], [], ?_, List.nodup_nil, ?_⟩
    · unfold collect_candidates
      rw [if_pos hpr]
    · intro p
      simp only [List.not_mem_nil, false_iff]
      rintro ⟨_, d, hrd, _⟩
      have hdir : fs.isDir root = false := by
        cases h : fs.isDir root
        · rfl
        · exact absurd (by simp [FS.present, h]) hpr
      exact reach_none hdir d hrd

theorem mainCollect_noArch (fs : FS) (artifactRoot : FPath)
    (hna : noArchives fs) (hwf : fs.wf) :
    ∃ cands vis,
      mainCollect (sufFuel fs) fs artifactRoot = .ok (fs, cands, vis) ∧
      (∀ p, p ∈ cands ↔ fs.isFile p = true ∧
        ∃ r ∈ searchRoots artifactRoot,
          ∃ d, Reach fs r d ∧ isChildOf d p = true) := by
  obtain ⟨c1, v1, h1, _, hiff1⟩ :=
    collect_noArch fs (artifactRoot ++ ["customization-template".data]) hna
      hwf
  obtain ⟨c2, v2, h2, _, hiff2⟩ :=
    collect_noArch fs (artifactRoot ++ ["customization".data]) hna hwf
  obtain ⟨c3, v3, h3, _, hiff3⟩ := collect_noArch fs artifactRoot hna hwf
  have hcons : ∀ (fsA fsB : FS) (r : FPath) (rs : List FPath)
      (cands vis : List FPath),
      collect_candidates (sufFuel fs) fsA r = .ok (fsB, cands, vis) →
      collectRoots (sufFuel fs) fsA (r :: rs) =
        (collectRoots (sufFuel fs) fsB rs).map
          (fun res => (res.1, cands ++ res.2.1, vis ++ res.2.2)) := by
    intro fsA fsB r rs cands vis h
    simp only [collectRoots]
    rw [h]
  have e1 : collectRoots (sufFuel fs) fs (searchRoots artifactRoot) =
      .ok (fs, c1 ++ (c2 ++ (c3 ++ [])), v1 ++ (v2 ++ (v3 ++ []))) := by
    unfold searchRoots
    rw [hcons _ _ _ _ _ _ h1, hcons _ _ _ _ _ _ h2, hcons _ _ _ _ _ _ h3]
    rfl
  refine ⟨c1 ++ (c2 ++ (c3 ++ [])), v1 ++ (v2 ++ (v3 ++ [])), e1, ?_⟩
  intro p
  simp only [List.mem_append, List.not_mem_nil, or_false]
  rw [hiff1 p, hiff2 p, hiff3 p]
  constructor
  · rintro (⟨hf, d, hr, hc⟩ | ⟨hf, d, hr, hc⟩ | ⟨hf, d, hr, hc⟩)
    · exact ⟨hf, _, by simp [searchRoots], d, hr, hc⟩
    · exact ⟨hf, _, by simp [searchRoots], d, hr, hc⟩
    · exact ⟨hf, _, by simp [searchRoots], d, hr, hc⟩
  · rintro ⟨hf, r, hrmem, d, hr, hc⟩
    have hr3 : r = artifactRoot ++ ["customization-template".data] ∨
        r = artifactRoot ++ ["customization".data] ∨ r = artifactRoot := by
      simpa [searchRoots] using hrmem
    rcases hr3 with rfl | rfl | rfl
    · exact Or.inl ⟨hf, d, hr, hc⟩
    · exact Or.inr (Or.inl ⟨hf, d, hr, hc⟩)
    · exact Or.inr (Or.inr ⟨hf, d, hr, hc⟩)

/-! ### Claim C3 -/

/-- C3 as stated is false: `main` runs `collect_candidates` separately per
search root, each call with a fresh visited set, so with overlapping roots
(`art/customization` inside the artifact root `art`) the subdirectory is
visited twice across the combined traversal and its file is collected
twice. -/
theorem claim_C3_counterexample :
    noArchives fsOverlap ∧ FS.wf fsOverlap ∧
    (mainCollect (sufFuel fsOverlap) fsOverlap ["art".data]).toOption.map
        (fun r => r.2.2) =
      some [["art".data, "customization".data], ["art".data],
        ["art".data, "customization".data]] ∧
    ¬ ([["art".data, "customization".data], ["art".data],
        ["art".data, "customization".data]] : List FPath).Nodup ∧
    (mainCollect (sufFuel fsOverlap) fsOverlap ["art".data]).toOption.map
        (fun r => r.2.1) =
      some [["art".data, "customization".data, "f.properties".data],
        ["art".data, "customization".data, "f.properties".data]] := by
  exact ⟨by unfold noArchives; decide, by unfold FS.wf; decide, rfl,
    by decide, rfl⟩

/-- C3 amended: for archive-free well-formed trees, a single
`collect_candidates` invocation returns exactly the regular files reachable
from its root and iterates each directory at most once; `main`'s combined
collection over the three search roots (each invocation with a fresh
visited set) yields, as a set, exactly the union of the files reachable
from those roots — but overlapping roots are re-visited across
invocations, so the combined visit log and candidate list may contain
duplicates. -/
theorem claim_C3 (fs : FS) (root artifactRoot : FPath)
    (hna : noArchives fs) (hwf : fs.wf) :
    (∃ cands vis,
      collect_candidates (sufFuel fs) fs root = .ok (fs, cands, vis) ∧
      vis.Nodup ∧
      (∀ p, p ∈ cands ↔ fs.isFile p = true ∧
        ∃ d, Reach fs root d ∧ isChildOf d p = true)) ∧
    (∃ cands2 vis2,
      mainCollect (sufFuel fs) fs artifactRoot = .ok (fs, cands2, vis2) ∧
      (∀ p, p ∈ cands2 ↔ fs.isFile p = true ∧
        ∃ r ∈ searchRoots artifactRoot,
          ∃ d, Reach fs r d ∧ isChildOf d p = true)) :=
  ⟨collect_noArch fs root hna hwf, mainCollect_noArch fs artifactRoot hna hwf⟩

/-- Witness for C3 at a concrete input. -/
theorem claim_C3_witness :
    noArchives fsOverlap ∧ FS.wf fsOverlap ∧
    ((∃ cands vis,
      collect_candidates (sufFuel fsOverlap) fsOverlap ["art".data] =
        .ok (fsOverlap, cands, vis) ∧
      vis.Nodup ∧
      (∀ p, p ∈ cands ↔ fsOverlap.isFile p = true ∧
        ∃ d, Reach fsOverlap ["art".data] d ∧ isChildOf d p = true)) ∧
    (∃ cands2 vis2,
      mainCollect (sufFuel fsOverlap) fsOverlap ["art".data] =
        .ok (fsOverlap, cands2, vis2) ∧
      (∀ p, p ∈ cands2 ↔ fsOverlap.isFile p = true ∧
        ∃ r ∈ searchRoots ["art".data],
          ∃ d, Reach fsOverlap r d ∧ isChildOf d p = true))) :=
  ⟨by unfold noArchives; decide, by unfold FS.wf; decide,
    claim_C3 fsOverlap ["art".data] ["art".data]
      (by unfold noArchives; decide) (by unfold FS.wf; decide)⟩

end ICF
